import Mathlib

/-!
A shallow embedding of the SCIP-to-RST converter ("scip parse") and of the
RST query/navigation engine ("scip cli", "scip tui"), together with theorems
checking the specification's claims against the embedded code.

Strings are modelled as `List Char`.  The Go code manipulates strings at the
byte level, but every operation used here (searching for an ASCII backtick,
trimming ASCII prefixes/suffixes, replacing single ASCII characters) acts on
UTF-8 strings exactly as the corresponding character-level operation, so the
model is faithful.
-/

/-- Character-sequence model of a Go string. -/
abbrev Str := List Char

/-- Shorthand turning a Lean string literal into the `Str` model. -/
def str (s : String) : Str := s.toList

/-- The backtick character (written via its code point). -/
def backtick : Char := Char.ofNat 96

/-- Go `strings.TrimPrefix`. -/
def trimPrefix (p s : Str) : Str := if p.isPrefixOf s then s.drop p.length else s

/-- Go `strings.TrimSuffix`. -/
def trimSuffix (p s : Str) : Str := if p.isSuffixOf s then s.take (s.length - p.length) else s

/-- Go `strings.HasPrefix`. -/
def hasPrefix (s p : Str) : Bool := p.isPrefixOf s

/-- Go `strings.HasSuffix`. -/
def hasSuffix (s p : Str) : Bool := p.isSuffixOf s

/-- Go `strings.ReplaceAll` for a single-character pattern and replacement. -/
def replaceAllChar (old new : Char) (s : Str) : Str :=
  s.map (fun c => if c = old then new else c)

/-- The part of `s` after the last occurrence of `c`
(`none` when `c` does not occur).  This models the combination
`lastTick := strings.LastIndex(s, "x"); s[lastTick+1:]`. -/
def afterLast (c : Char) : Str → Option Str
  | [] => none
  | x :: xs =>
    match afterLast c xs with
    | some r => some r
    | none => if x = c then some xs else none

theorem afterLast_eq_none_iff (c : Char) (s : Str) : afterLast c s = none ↔ c ∉ s := by
  induction s with
  | nil => simp [afterLast]
  | cons x xs ih =>
    simp only [afterLast]
    cases h : afterLast c xs with
    | some r =>
      have hc : c ∈ xs := by
        by_contra hmem
        exact absurd (ih.mpr hmem) (by simp [h])
      simp [List.mem_cons, hc]
    | none =>
      have hc : c ∉ xs := ih.mp h
      constructor
      · intro he
        simp only [List.mem_cons]
        rintro (rfl | hmem)
        · simp at he
        · exact hc hmem
      · intro hmem
        have : ¬ x = c := fun hx => hmem (by simp [hx])
        simp [this]

theorem afterLast_append (c : Char) (a b : Str) (hb : c ∉ b) :
    afterLast c (a ++ c :: b) = some b := by
  induction a with
  | nil => simp [afterLast, (afterLast_eq_none_iff c b).mpr hb]
  | cons x xs ih => simp [afterLast, ih]

/-- `extractSymbolName` from the query layer: the text after the last backtick,
with a leading "/" and then a trailing "#", ".", "()" stripped; the id itself
when it has no backtick. -/
def extractSymbolName (s : Str) : Str :=
  match afterLast backtick s with
  | none => s
  | some afterTick =>
    trimSuffix (str "()") (trimSuffix (str ".") (trimSuffix (str "#") (trimPrefix (str "/") afterTick)))

/-- `extractSymbolKey` from the TUI layer: the id truncated just after its
last backtick; the id itself when it has no backtick. -/
def extractSymbolKey (s : Str) : Str :=
  match afterLast backtick s with
  | none => s
  | some t => s.take (s.length - t.length)

/-- Claim C7: `extractSymbolName` returns the text after the last backtick in
the id, with a leading "/" stripped and a trailing "#", ".", or "()" stripped,
and returns the id unchanged when it contains no backtick; in particular a
post-backtick text "Foo()" yields "Foo" and "Outer.Inner#" yields
"Outer.Inner". -/
theorem claim_C7 :
    (∀ s : Str, backtick ∉ s → extractSymbolName s = s) ∧
    (∀ a b : Str, backtick ∉ b →
      extractSymbolName (a ++ backtick :: b) =
        trimSuffix (str "()") (trimSuffix (str ".") (trimSuffix (str "#") (trimPrefix (str "/") b)))) ∧
    extractSymbolName (str "scip-go gomod m v " ++ backtick :: str "a/b/c.go" ++ backtick :: str "Foo()") = str "Foo" ∧
    extractSymbolName (str "scip-go gomod m v " ++ backtick :: str "a/b/c.go" ++ backtick :: str "Outer.Inner#") = str "Outer.Inner" := by
  refine ⟨?_, ?_, by decide, by decide⟩
  · intro s hs
    simp [extractSymbolName, (afterLast_eq_none_iff backtick s).mpr hs]
  · intro a b hb
    simp [extractSymbolName, afterLast_append backtick a b hb]

theorem claim_C7_witness :
    extractSymbolName (str "Foo") = str "Foo" :=
  claim_C7.1 (str "Foo") (by decide)

/-!  ## Association-list model of Go maps

A Go `map[string]V` is modelled as a `List (Str × V)` whose keys are kept
unique: `mapInsert` overwrites the binding of an existing key in place and
appends a new binding otherwise, `mapLookup` finds the binding of a key.
Go's nondeterministic map iteration order is modelled as insertion order.
-/

/-- Lookup in the association-list model of a Go map. -/
def mapLookup {α : Type} (m : List (Str × α)) (k : Str) : Option α :=
  (m.find? (fun p => p.1 == k)).map (·.2)

/-- Insert-or-overwrite in the association-list model of a Go map. -/
def mapInsert {α : Type} (m : List (Str × α)) (k : Str) (v : α) : List (Str × α) :=
  if (m.find? (fun p => p.1 == k)).isSome
  then m.map (fun p => if p.1 == k then (k, v) else p)
  else m ++ [(k, v)]

/-- Pointwise update of the binding of `k` (no-op when `k` is absent). -/
def mapUpdate {α : Type} (m : List (Str × α)) (k : Str) (f : α → α) : List (Str × α) :=
  m.map (fun p => if p.1 == k then (p.1, f p.2) else p)

theorem mapLookup_nil {α : Type} (k : Str) : mapLookup ([] : List (Str × α)) k = none := rfl

theorem mapLookup_cons {α : Type} (p : Str × α) (m : List (Str × α)) (k : Str) :
    mapLookup (p :: m) k = if p.1 = k then some p.2 else mapLookup m k := by
  unfold mapLookup
  by_cases h : p.1 = k
  · rw [List.find?_cons_of_pos _ (by simp [h])]
    simp [h]
  · rw [List.find?_cons_of_neg _ (by simp [h])]
    simp [h]

theorem mapLookup_append {α : Type} (m₁ m₂ : List (Str × α)) (k : Str) :
    mapLookup (m₁ ++ m₂) k =
      match mapLookup m₁ k with
      | some v => some v
      | none => mapLookup m₂ k := by
  induction m₁ with
  | nil => simp [mapLookup]
  | cons p m ih =>
    rw [List.cons_append, mapLookup_cons, mapLookup_cons]
    by_cases h : p.1 = k <;> simp [h, ih]

theorem mapLookup_replace {α : Type} (m : List (Str × α)) (k k' : Str) (v : α) :
    mapLookup (m.map (fun p => if p.1 == k then (k, v) else p)) k' =
      if k' = k then (mapLookup m k).map (fun _ => v) else mapLookup m k' := by
  have hfun : (fun (p : Str × α) => if p.1 == k then (k, v) else p)
      = (fun p => if p.1 = k then (k, v) else p) := by
    funext p
    by_cases h : p.1 = k <;> simp [h]
  rw [hfun]
  induction m with
  | nil => by_cases h : k' = k <;> simp [mapLookup, h]
  | cons p m ih =>
    simp only [List.map_cons]
    by_cases hp : p.1 = k
    · simp only [hp, if_true, mapLookup_cons]
      by_cases hk : k' = k
      · subst hk
        simp [hp, mapLookup_cons]
      · have hkk : ¬ (k = k') := fun h => hk h.symm
        have hpk' : ¬ (p.1 = k') := by rw [hp]; exact hkk
        simp [hkk, hk, ih, mapLookup_cons, hpk']
    · simp only [hp, if_false, mapLookup_cons]
      by_cases hk : k' = k
      · subst hk
        simp [hp, ih, mapLookup_cons]
      · by_cases hpk : p.1 = k'
        · simp [hpk, hk, mapLookup_cons]
        · simp [hpk, hk, ih, mapLookup_cons]

theorem mapLookup_insert {α : Type} (m : List (Str × α)) (k k' : Str) (v : α) :
    mapLookup (mapInsert m k v) k' = if k' = k then some v else mapLookup m k' := by
  unfold mapInsert
  have hfind : (m.find? (fun p => p.1 == k)).isSome = (mapLookup m k).isSome := by
    unfold mapLookup
    cases m.find? (fun p => p.1 == k) <;> rfl
  by_cases hex : (m.find? (fun p => p.1 == k)).isSome
  · simp only [hex, if_true]
    rw [mapLookup_replace]
    rcases Option.isSome_iff_exists.mp (hfind ▸ hex) with ⟨w, hw⟩
    by_cases hk : k' = k <;> simp [hk, hw]
  · simp only [hex, Bool.false_eq_true, if_false]
    rw [mapLookup_append]
    have hnone : mapLookup m k = none := by
      cases h : mapLookup m k
      · rfl
      · exact absurd (hfind ▸ (by simp [h] : (mapLookup m k).isSome = true)) hex
    by_cases hk : k' = k
    · subst hk
      simp [hnone, mapLookup_cons]
    · cases h : mapLookup m k' with
      | some v' => simp [h, hk]
      | none =>
        have hkk : ¬ (k = k') := fun h => hk h.symm
        simp [h, hk, mapLookup_cons, hkk, mapLookup_nil]

theorem mapLookup_update {α : Type} (m : List (Str × α)) (k k' : Str) (f : α → α) :
    mapLookup (mapUpdate m k f) k' =
      if k' = k then (mapLookup m k).map f else mapLookup m k' := by
  unfold mapUpdate
  have hfun : (fun (p : Str × α) => if p.1 == k then (p.1, f p.2) else p)
      = (fun p => if p.1 = k then (p.1, f p.2) else p) := by
    funext p
    by_cases h : p.1 = k <;> simp [h]
  rw [hfun]
  induction m with
  | nil => by_cases h : k' = k <;> simp [mapLookup, h]
  | cons p m ih =>
    simp only [List.map_cons]
    by_cases hp : p.1 = k
    · simp only [hp, if_true, mapLookup_cons]
      by_cases hk : k' = k
      · subst hk
        simp [hp, mapLookup_cons]
      · have hkk : ¬ (k = k') := fun h => hk h.symm
        have hpk' : ¬ (p.1 = k') := by rw [hp]; exact hkk
        simp [hkk, hk, ih, mapLookup_cons, hpk']
    · simp only [hp, if_false, mapLookup_cons]
      by_cases hk : k' = k
      · subst hk
        simp [hp, ih, mapLookup_cons]
      · by_cases hpk : p.1 = k'
        · simp [hpk, hk, mapLookup_cons]
        · simp [hpk, hk, ih, mapLookup_cons]

theorem mapInsert_mem {α : Type} (m : List (Str × α)) (k : Str) (v : α) (x : Str × α) :
    x ∈ mapInsert m k v → x = (k, v) ∨ x ∈ m := by
  unfold mapInsert
  by_cases hex : (m.find? (fun p => p.1 == k)).isSome
  · simp only [hex, if_true, List.mem_map]
    rintro ⟨p, hp, hpx⟩
    by_cases h : p.1 = k
    · left
      simp [h] at hpx
      exact hpx.symm
    · right
      simp [h] at hpx
      exact hpx ▸ hp
  · simp only [hex, Bool.false_eq_true, if_false, List.mem_append, List.mem_singleton]
    rintro (h | h)
    · exact Or.inr h
    · exact Or.inl h

/-!  ## SCIP input model and RST data model

The SCIP index is an external input (§6 of the spec): a document carries a
relative path, a language, declared symbols and occurrences.  A declared
symbol's `kind` field holds the string rendering of the SCIP kind enum
(`sym.Kind.String()` in the code); local-symbol detection is a predicate
supplied by the SCIP bindings and is a parameter `isLocal` below.
Row/line values are `int32` in the source; they are modelled as `Int`
(no arithmetic that could overflow 32 bits occurs in the claims).
-/

structure ScipOccurrence where
  symbol : Str
  range : List Int
  enclosingRange : List Int
  symbolRoles : Nat
deriving DecidableEq

structure ScipSymbolInfo where
  symbol : Str
  kind : Str
  displayName : Str
  documentation : List Str
  signatureDocText : Str
deriving DecidableEq

structure ScipDocument where
  relativePath : Str
  language : Str
  symbols : List ScipSymbolInfo
  occurrences : List ScipOccurrence
deriving DecidableEq

/-- An RST symbol entry (message `rst.Symbol`): proto3 zero values are
`line = 0`, empty `code`, empty edge lists. -/
structure RSTSymbol where
  symbol : Str
  kind : Str
  signature : Str
  line : Int
  code : Str
  dependenceOn : List Str
  referenceBy : List Str
deriving DecidableEq

structure RSTDocument where
  relativePath : Str
  symbols : List (Str × RSTSymbol)
deriving DecidableEq

structure RST where
  repo : Str
  language : Str
  documents : List (Str × RSTDocument)
deriving DecidableEq

/-- `scip.SymbolRole_Definition` (bit 0 of the role bit-set). -/
def SymbolRole_Definition : Nat := 1

/-- `scip.SymbolRole_ForwardDefinition` (bit 6 of the role bit-set). -/
def SymbolRole_ForwardDefinition : Nat := 64

/-- `inferKindFromRoles`: "FUNC" when the Definition or ForwardDefinition
role bit is set, empty otherwise. -/
def inferKindFromRoles (roles : Nat) : Str :=
  if 0 < Nat.land roles SymbolRole_Definition ∨ 0 < Nat.land roles SymbolRole_ForwardDefinition
  then str "FUNC" else []

/-- `isCodeExtractableKind`. -/
def isCodeExtractableKind (kind : Str) : Bool :=
  kind == str "Function" || kind == str "Method" || kind == str "FUNC" ||
  kind == str "Constructor" || kind == str "Destructor"

/-- The kind-to-prefix table of `buildSignature` (the `switch` on `sym.Kind`,
stated on the kind's string rendering, on which the enum values involved are
distinguishable). -/
def kindPrefixOf (kind : Str) : Str :=
  if kind = str "Function" ∨ kind = str "Method" then str "func "
  else if kind = str "Struct" then str "type "
  else if kind = str "Class" then str "class "
  else if kind = str "Interface" then str "interface "
  else if kind = str "Constant" then str "const "
  else []

/-- `buildSignature`: explicit signature documentation first, then the first
documentation string that is a fenced Go code block (its inner text,
`doc[6 : len(doc)-4]`), else `"<kind-prefix> <name>"`. -/
def buildSignature (sym : ScipSymbolInfo) : Str :=
  if sym.signatureDocText ≠ [] then sym.signatureDocText
  else
    match sym.documentation.find? (fun d => hasPrefix d (str "```go\n") && hasSuffix d (str "\n```")) with
    | some d => ((d.take (d.length - 4)).drop 6 : Str)
    | none =>
      let name := if sym.displayName = [] then extractSymbolName sym.symbol else sym.displayName
      kindPrefixOf sym.kind ++ name

/-- Metadata kept in the per-document occurrence index: 1-indexed line of the
first retained occurrence and the kind inferred from its role bits. -/
structure OccInfo where
  line : Int
  kind : Str
deriving DecidableEq

/-- The per-document occurrence index of pass 1: scanning occurrences once,
the first occurrence of each symbol id with a non-empty range and non-empty
id wins (`int32(occ.Range[0]) + 1` as the 1-indexed line). -/
def occStep (idx : List (Str × OccInfo)) (occ : ScipOccurrence) : List (Str × OccInfo) :=
  match occ.range with
  | [] => idx
  | r0 :: _ =>
    if occ.symbol ≠ [] ∧ mapLookup idx occ.symbol = none then
      mapInsert idx occ.symbol { line := r0 + 1, kind := inferKindFromRoles occ.symbolRoles }
    else idx

def buildOccIndex (occs : List ScipOccurrence) : List (Str × OccInfo) :=
  occs.foldl occStep []

/-!  ## The RST builder (`buildRST` in the parse command)

Two external capabilities are parameters: `isLocal` is
`scip.IsLocalSymbol` from the SCIP bindings, and `extractCode` stands for
`treeSitterExtractCode`'s file access (`projectRoot`, relative path, line,
language); its pure tree-walking core is modelled separately below for C5.

Go shares one `*rst.Symbol` object between a document's symbol map and the
global `symbolIndex`; the cross-reference pass mutates through `symbolIndex`.
The functional model records, with every `symbolIndex` binding, the index of
the document whose (last) declaration created the shared object, and the
final reconstruction gives a document's entry the cross-referenced value
exactly when that document owns the shared object.
-/

section Builder

variable (isLocal : Str → Bool)
variable (extractCode : Str → Str → Int → Str → Str)

/-- The `rst.Symbol` built for one declared symbol in pass 1: kind and
signature from the declaration, line/kind from the occurrence index (the kind
only when the declared kind was "UnspecifiedKind" or empty), then optional
body extraction for extractable kinds. -/
def mkRSTSymbol (projectRoot : Str) (occIdx : List (Str × OccInfo))
    (doc : ScipDocument) (sym : ScipSymbolInfo) : RSTSymbol :=
  let base : RSTSymbol :=
    { symbol := sym.symbol, kind := sym.kind, signature := buildSignature sym,
      line := 0, code := [], dependenceOn := [], referenceBy := [] }
  let withOcc :=
    match mapLookup occIdx sym.symbol with
    | some info =>
      { base with line := info.line,
                  kind := if base.kind = str "UnspecifiedKind" ∨ base.kind = [] then info.kind else base.kind }
    | none => base
  if projectRoot ≠ [] ∧ 0 < withOcc.line ∧ doc.relativePath ≠ [] ∧ isCodeExtractableKind withOcc.kind then
    let code := extractCode projectRoot doc.relativePath withOcc.line doc.language
    if code ≠ [] then { withOcc with code := code } else withOcc
  else withOcc

/-- Pass 1 for one document: its symbol map (non-local declared symbols). -/
def pass1Doc (projectRoot : Str) (doc : ScipDocument) : List (Str × RSTSymbol) :=
  let occIdx := buildOccIndex doc.occurrences
  doc.symbols.foldl
    (fun m sym =>
      if isLocal sym.symbol then m
      else mapInsert m sym.symbol (mkRSTSymbol extractCode projectRoot occIdx doc sym))
    []

/-- Pass 1 `symbolIndex`, with each binding tagged by the index of the
document that created the shared object. -/
def pass1Index (projectRoot : Str) (docs : List ScipDocument) : List (Str × (Nat × RSTSymbol)) :=
  docs.enum.foldl
    (fun idx p =>
      let occIdx := buildOccIndex p.2.occurrences
      p.2.symbols.foldl
        (fun idx sym =>
          if isLocal sym.symbol then idx
          else mapInsert idx sym.symbol (p.1, mkRSTSymbol extractCode projectRoot occIdx p.2 sym))
        idx)
    []

/-- `append`-if-absent, the linear-scan deduplication of the edge lists. -/
def addIfAbsent (l : List Str) (x : Str) : List Str :=
  if x ∈ l then l else l ++ [x]

/-- The `dependence_on` half of one matched pair of the cross-reference
pass: when the scope symbol is indexed and the inner symbol is non-local,
the scope symbol's `dependence_on` gains the inner symbol (deduplicated). -/
def depStage (idx : List (Str × (Nat × RSTSymbol))) (scopeSym targetSym : Str) :
    List (Str × (Nat × RSTSymbol)) :=
  match mapLookup idx scopeSym with
  | some _ =>
    if isLocal targetSym then idx
    else mapUpdate idx scopeSym
      (fun p => (p.1, { p.2 with dependenceOn := addIfAbsent p.2.dependenceOn targetSym }))
  | none => idx

/-- The `reference_by` half: when the inner symbol is indexed, its
`reference_by` gains the scope symbol (deduplicated). -/
def refStage (idx : List (Str × (Nat × RSTSymbol))) (scopeSym targetSym : Str) :
    List (Str × (Nat × RSTSymbol)) :=
  match mapLookup idx targetSym with
  | some _ =>
    mapUpdate idx targetSym
      (fun p => (p.1, { p.2 with referenceBy := addIfAbsent p.2.referenceBy scopeSym }))
  | none => idx

/-- One matched (scope occurrence, inner occurrence) pair: the
`dependence_on` update, then the `reference_by` update, exactly as in the
source's loop body. -/
def crossPair (idx : List (Str × (Nat × RSTSymbol))) (scopeSym targetSym : Str) :
    List (Str × (Nat × RSTSymbol)) :=
  refStage (depStage isLocal idx scopeSym targetSym) scopeSym targetSym

/-- The inner-loop body of the cross-reference pass: skip the scope's own
occurrences and occurrences without a range; match when the first range row
lies within `[s0, e2]`. -/
def crossInner (occ : ScipOccurrence) (s0 e2 : Int)
    (idx : List (Str × (Nat × RSTSymbol))) (other : ScipOccurrence) :
    List (Str × (Nat × RSTSymbol)) :=
  if other.symbol == occ.symbol then idx
  else
    match other.range with
    | [] => idx
    | o0 :: _ =>
      if s0 ≤ o0 ∧ o0 ≤ e2 then crossPair isLocal idx occ.symbol other.symbol else idx

/-- The cross-reference pass for one scope occurrence: skip local scope
symbols and occurrences without an enclosing range of at least three values;
scan all occurrences of the document. -/
def crossOcc (idx : List (Str × (Nat × RSTSymbol))) (others : List ScipOccurrence)
    (occ : ScipOccurrence) : List (Str × (Nat × RSTSymbol)) :=
  if isLocal occ.symbol then idx
  else
    match occ.enclosingRange with
    | s0 :: _ :: e2 :: _ => others.foldl (crossInner isLocal occ s0 e2) idx
    | _ => idx

/-- The cross-reference pass for one document. -/
def crossDoc (idx : List (Str × (Nat × RSTSymbol))) (doc : ScipDocument) :
    List (Str × (Nat × RSTSymbol)) :=
  doc.occurrences.foldl (fun idx occ => crossOcc isLocal idx doc.occurrences occ) idx

/-- Pass 2 over all documents. -/
def pass2 (docs : List ScipDocument) (idx0 : List (Str × (Nat × RSTSymbol))) :
    List (Str × (Nat × RSTSymbol)) :=
  docs.foldl (crossDoc isLocal) idx0

/-- `buildRST`: pass 1, cross-reference pass, and the per-document symbol
tables, where a document's entry carries the cross-referenced value exactly
when it owns the shared `symbolIndex` object.  Go reads `docs[0].Language`
(a panic on an empty slice; claim C10 shows every call site passes a
non-empty group). -/
def buildRST (docs : List ScipDocument) (repoID projectRoot : Str) : RST :=
  let idx := pass2 isLocal docs (pass1Index isLocal extractCode projectRoot docs)
  { repo := repoID,
    language := match docs with | [] => [] | d :: _ => d.language,
    documents :=
      docs.enum.foldl
        (fun dmap p =>
          mapInsert dmap p.2.relativePath
            { relativePath := p.2.relativePath,
              symbols :=
                (pass1Doc isLocal extractCode projectRoot p.2).map
                  (fun q =>
                    match mapLookup idx q.1 with
                    | some js => if js.1 = p.1 then (q.1, js.2) else q
                    | none => q) })
        [] }

end Builder

/-- `scip.IsLocalSymbol` of the SCIP bindings: a symbol id is local when it
starts with "local ". -/
def scipIsLocalSymbol (s : Str) : Bool := hasPrefix s (str "local ")

/-- The language grouping of `parseMain`: `langDocs[lang] = append(...)`,
with empty languages mapped to "unknown". -/
def langKey (doc : ScipDocument) : Str :=
  if doc.language = [] then str "unknown" else doc.language

def addDocToGroups (groups : List (Str × List ScipDocument)) (doc : ScipDocument) :
    List (Str × List ScipDocument) :=
  match mapLookup groups (langKey doc) with
  | some ds => mapInsert groups (langKey doc) (ds ++ [doc])
  | none => mapInsert groups (langKey doc) [doc]

def groupDocsByLanguage (docs : List ScipDocument) : List (Str × List ScipDocument) :=
  docs.foldl addDocToGroups []

theorem groups_values_nonempty (docs : List ScipDocument) :
    ∀ groups, (∀ p ∈ groups, p.2 ≠ ([] : List ScipDocument)) →
      ∀ p ∈ docs.foldl addDocToGroups groups, p.2 ≠ [] := by
  induction docs with
  | nil =>
    intro groups h p hp
    exact h p hp
  | cons d ds ih =>
    intro groups h p hp
    rw [List.foldl_cons] at hp
    refine ih (addDocToGroups groups d) ?_ p hp
    intro q hq
    unfold addDocToGroups at hq
    cases hl : mapLookup groups (langKey d) with
    | some l =>
      rw [hl] at hq
      rcases mapInsert_mem _ _ _ _ hq with h1 | h1
      · rw [h1]
        simp
      · exact h q h1
    | none =>
      rw [hl] at hq
      rcases mapInsert_mem _ _ _ _ hq with h1 | h1
      · rw [h1]
        simp
      · exact h q h1

/-- Claim C10: `buildRST` reads `docs[0].Language`, so it requires a
non-empty document slice; its only call site groups documents by language and
a language group exists only when at least one document was appended to it,
so every group passed to `buildRST` is non-empty and the out-of-bounds access
is unreachable (and the language read is the first group member's). -/
theorem claim_C10 (docs : List ScipDocument) (l : Str) (g : List ScipDocument)
    (hmem : (l, g) ∈ groupDocsByLanguage docs) :
    g ≠ [] ∧
    ∀ (isLocal : Str → Bool) (extractCode : Str → Str → Int → Str → Str) (repoID projectRoot : Str),
      ∃ d rest, g = d :: rest ∧
        (buildRST isLocal extractCode g repoID projectRoot).language = d.language := by
  have hne : g ≠ [] :=
    groups_values_nonempty docs [] (by intro p hp; simp at hp) (l, g) hmem
  refine ⟨hne, ?_⟩
  intro isLocal extractCode repoID projectRoot
  cases g with
  | nil => exact absurd rfl hne
  | cons d rest => exact ⟨d, rest, rfl, rfl⟩

def docC10 : ScipDocument :=
  { relativePath := str "a.go", language := str "go", symbols := [], occurrences := [] }

theorem claim_C10_witness :
    ([docC10] ≠ [] ∧
      ∀ (isLocal : Str → Bool) (extractCode : Str → Str → Int → Str → Str) (repoID projectRoot : Str),
        ∃ d rest, [docC10] = d :: rest ∧
          (buildRST isLocal extractCode [docC10] repoID projectRoot).language = d.language) :=
  claim_C10 [docC10] (str "go") [docC10] (by decide)

/-!  ## RST file naming: the parse-side writer and the query-side readers -/

/-- `sanitizeRepoID` (parse command): strip scheme prefixes, then replace
"/", ".", ":", "-" by "_". -/
def sanitizeRepoID (repoID : Str) : Str :=
  replaceAllChar '-' '_' (replaceAllChar ':' '_' (replaceAllChar '.' '_' (replaceAllChar '/' '_'
    (trimPrefix (str "git@") (trimPrefix (str "http://") (trimPrefix (str "https://") repoID))))))

/-- The output filename `fmt.Sprintf("%s.%s.rst", sanitizedRepoID, lang)` of
`parseMain`. -/
def writerRSTFilename (repoID lang : Str) : Str :=
  sanitizeRepoID repoID ++ str "." ++ lang ++ str ".rst"

/-- `repoToRSTFile` (TUI): replace "." and "/" by "_" and append ".go.rst". -/
def repoToRSTFile (repo : Str) : Str :=
  replaceAllChar '/' '_' (replaceAllChar '.' '_' repo) ++ str ".go.rst"

/-- `findRSTFileByRepo` (CLI): same filename computation inline; the
`os.Stat` probe succeeds exactly when the file is present, modelled by
membership in the directory listing `files`. -/
def findRSTFileByRepo (files : List Str) (repo : Str) : Option Str :=
  let rstFileName := replaceAllChar '/' '_' (replaceAllChar '.' '_' repo) ++ str ".go.rst"
  if rstFileName ∈ files then some rstFileName else none

theorem replaceAllChar_length (a b : Char) (s : Str) :
    (replaceAllChar a b s).length = s.length := by
  simp [replaceAllChar]

theorem notMem_replaceAllChar_self (a b : Char) (hab : a ≠ b) (s : Str) :
    a ∉ replaceAllChar a b s := by
  intro hmem
  rcases List.mem_map.mp hmem with ⟨d, _, hfd⟩
  by_cases h : d = a
  · rw [if_pos h] at hfd
    exact hab hfd.symm
  · rw [if_neg h] at hfd
    exact h hfd

theorem notMem_replaceAllChar (c a b : Char) (hcb : c ≠ b) (s : Str) (hc : c ∉ s) :
    c ∉ replaceAllChar a b s := by
  intro hmem
  rcases List.mem_map.mp hmem with ⟨d, hd, hfd⟩
  by_cases h : d = a
  · rw [if_pos h] at hfd
    exact hcb hfd.symm
  · rw [if_neg h] at hfd
    exact hc (hfd ▸ hd)

theorem mem_replaceAllChar (c a b : Char) (hca : c ≠ a) (s : Str) (hc : c ∈ s) :
    c ∈ replaceAllChar a b s :=
  List.mem_map.mpr ⟨c, hc, by rw [if_neg hca]⟩

theorem replaceAllChar_eq_self (a b : Char) (s : Str) (h : a ∉ s) :
    replaceAllChar a b s = s := by
  induction s with
  | nil => rfl
  | cons x xs ih =>
    have hx : ¬ x = a := fun hxa => h (by simp [hxa])
    have hxs : a ∉ xs := fun hm => h (by simp [hm])
    simp only [replaceAllChar, List.map_cons, if_neg hx]
    rw [show xs.map (fun c => if c = a then b else c) = replaceAllChar a b xs from rfl, ih hxs]

theorem trimPrefix_eq_self (p s : Str) (h : p.isPrefixOf s = false) :
    trimPrefix p s = s := by
  simp [trimPrefix, h]

theorem trimPrefix_length_le (p s : Str) : (trimPrefix p s).length ≤ s.length := by
  unfold trimPrefix
  by_cases h : p.isPrefixOf s = true <;> simp [h]

theorem trimPrefix_length_lt (p s : Str) (h : p.isPrefixOf s = true) (hp : p ≠ []) :
    (trimPrefix p s).length < s.length := by
  have hpre : p <+: s := by
    rwa [List.isPrefixOf_iff_prefix] at h
  have hple : p.length ≤ s.length := hpre.length_le
  have hppos : 0 < p.length := List.length_pos.mpr hp
  simp only [trimPrefix, h, if_true, List.length_drop]
  omega

theorem append_cons_eq_append_cons (c : Char) (S R u v : Str) (hS : c ∉ S) (hR : c ∉ R)
    (h : S ++ c :: u = R ++ c :: v) : S = R ∧ u = v := by
  induction S generalizing R with
  | nil =>
    cases R with
    | nil => simpa using h
    | cons r rs =>
      simp only [List.nil_append, List.cons_append] at h
      injection h with h1 h2
      exact absurd (by simp [h1.symm] : c ∈ r :: rs) hR
  | cons a as ih =>
    cases R with
    | nil =>
      simp only [List.nil_append, List.cons_append] at h
      injection h with h1 h2
      exact absurd (by simp [h1] : c ∈ a :: as) hS
    | cons r rs =>
      simp only [List.cons_append] at h
      injection h with h1 h2
      have hS' : c ∉ as := fun hm => hS (by simp [hm])
      have hR' : c ∉ rs := fun hm => hR (by simp [hm])
      rcases ih rs hS' hR' h2 with ⟨hSR, huv⟩
      exact ⟨by rw [h1, hSR], huv⟩

theorem sanitizeRepoID_dot_not_mem (repo : Str) : '.' ∉ sanitizeRepoID repo := by
  unfold sanitizeRepoID
  refine notMem_replaceAllChar '.' '-' '_' (by decide) _ ?_
  refine notMem_replaceAllChar '.' ':' '_' (by decide) _ ?_
  exact notMem_replaceAllChar_self '.' '_' (by decide) _

theorem readerCore_dot_not_mem (repo : Str) :
    '.' ∉ replaceAllChar '/' '_' (replaceAllChar '.' '_' repo) := by
  refine notMem_replaceAllChar '.' '/' '_' (by decide) _ ?_
  exact notMem_replaceAllChar_self '.' '_' (by decide) _

theorem writer_eq_reader_iff (repo lang : Str) :
    writerRSTFilename repo lang = repoToRSTFile repo ↔
      (sanitizeRepoID repo = replaceAllChar '/' '_' (replaceAllChar '.' '_' repo) ∧ lang = str "go") := by
  have e1 : (str "." : Str) = ['.'] := by decide
  have e2 : (str ".go.rst" : Str) = '.' :: (str "go" ++ str ".rst") := by decide
  constructor
  · intro h
    unfold writerRSTFilename repoToRSTFile at h
    rw [List.append_assoc, List.append_assoc, e1, List.singleton_append, e2] at h
    rcases append_cons_eq_append_cons '.' _ _ _ _ (sanitizeRepoID_dot_not_mem repo)
      (readerCore_dot_not_mem repo) h with ⟨h1, h2⟩
    exact ⟨h1, List.append_cancel_right h2⟩
  · rintro ⟨h1, h2⟩
    unfold writerRSTFilename repoToRSTFile
    rw [h1, h2, List.append_assoc, List.append_assoc]
    exact congrArg (fun t => replaceAllChar '/' '_' (replaceAllChar '.' '_' repo) ++ t) (by decide)

theorem sanitizeRepoID_length_lt (repo : Str)
    (h : (hasPrefix repo (str "https://") || hasPrefix repo (str "http://") ||
          hasPrefix repo (str "git@")) = true) :
    (sanitizeRepoID repo).length < repo.length := by
  unfold sanitizeRepoID
  simp only [replaceAllChar_length]
  by_cases h1 : (str "https://").isPrefixOf repo = true
  · calc (trimPrefix (str "git@") (trimPrefix (str "http://") (trimPrefix (str "https://") repo))).length
        ≤ (trimPrefix (str "http://") (trimPrefix (str "https://") repo)).length := trimPrefix_length_le _ _
      _ ≤ (trimPrefix (str "https://") repo).length := trimPrefix_length_le _ _
      _ < repo.length := trimPrefix_length_lt _ _ h1 (by decide)
  · rw [trimPrefix_eq_self _ _ (Bool.eq_false_iff.mpr h1)]
    by_cases h2 : (str "http://").isPrefixOf repo = true
    · calc (trimPrefix (str "git@") (trimPrefix (str "http://") repo)).length
          ≤ (trimPrefix (str "http://") repo).length := trimPrefix_length_le _ _
        _ < repo.length := trimPrefix_length_lt _ _ h2 (by decide)
    · rw [trimPrefix_eq_self _ _ (Bool.eq_false_iff.mpr h2)]
      have h3 : (str "git@").isPrefixOf repo = true := by
        simp only [hasPrefix] at h
        rcases Bool.or_eq_true_iff.mp h with h' | h'
        · rcases Bool.or_eq_true_iff.mp h' with h'' | h''
          · exact absurd h'' h1
          · exact absurd h'' h2
        · exact h'
      exact trimPrefix_length_lt _ _ h3 (by decide)

/-- Claim C9: the RST filename computed by the query readers agrees with the
filename written by the parse command only for Go partitions and benign repo
ids: both readers use the same formula (replace "." and "/" by "_", append
".go.rst"), which matches the writer exactly when the repo id has no ":",
no "-" and no scheme prefix and the partition language is "go"; when the
repo id contains ":" or "-" or starts with a scheme prefix, or the language
is not "go", the filenames differ and the reader's lookup of the writer's
output fails. -/
theorem claim_C9 :
    (∀ files repo, findRSTFileByRepo files repo =
      if repoToRSTFile repo ∈ files then some (repoToRSTFile repo) else none) ∧
    (∀ repo lang, ':' ∉ repo → '-' ∉ repo →
      hasPrefix repo (str "https://") = false → hasPrefix repo (str "http://") = false →
      hasPrefix repo (str "git@") = false → lang = str "go" →
      writerRSTFilename repo lang = repoToRSTFile repo) ∧
    (∀ repo lang,
      (':' ∈ repo ∨ '-' ∈ repo ∨
        (hasPrefix repo (str "https://") || hasPrefix repo (str "http://") ||
          hasPrefix repo (str "git@")) = true ∨ lang ≠ str "go") →
      writerRSTFilename repo lang ≠ repoToRSTFile repo ∧
      findRSTFileByRepo [writerRSTFilename repo lang] repo = none) := by
  refine ⟨fun files repo => rfl, ?_, ?_⟩
  · intro repo lang hc hd h1 h2 h3 hl
    rw [writer_eq_reader_iff]
    refine ⟨?_, hl⟩
    unfold sanitizeRepoID
    simp only [hasPrefix] at h1 h2 h3
    rw [trimPrefix_eq_self (str "https://") repo h1]
    rw [trimPrefix_eq_self (str "http://") repo h2]
    rw [trimPrefix_eq_self (str "git@") repo h3]
    have hc2 : ':' ∉ replaceAllChar '.' '_' (replaceAllChar '/' '_' repo) :=
      notMem_replaceAllChar ':' '.' '_' (by decide) _
        (notMem_replaceAllChar ':' '/' '_' (by decide) _ hc)
    have hd2 : '-' ∉ replaceAllChar '.' '_' (replaceAllChar '/' '_' repo) :=
      notMem_replaceAllChar '-' '.' '_' (by decide) _
        (notMem_replaceAllChar '-' '/' '_' (by decide) _ hd)
    rw [replaceAllChar_eq_self ':' '_' _ hc2, replaceAllChar_eq_self '-' '_' _ hd2]
    simp only [replaceAllChar, List.map_map]
    refine congrArg (fun f => List.map f repo) ?_
    funext c
    by_cases hcd : c = '.' <;> by_cases hcs : c = '/' <;>
      simp [Function.comp, hcd, hcs]
  · intro repo lang hcond
    have hne : writerRSTFilename repo lang ≠ repoToRSTFile repo := by
      intro heq
      rcases (writer_eq_reader_iff repo lang).mp heq with ⟨hcore, hlang⟩
      rcases hcond with hc | hd | hp | hl
      · have hmem : ':' ∈ replaceAllChar '/' '_' (replaceAllChar '.' '_' repo) :=
          mem_replaceAllChar ':' '/' '_' (by decide) _
            (mem_replaceAllChar ':' '.' '_' (by decide) repo hc)
        have : ':' ∉ sanitizeRepoID repo := by
          unfold sanitizeRepoID
          refine notMem_replaceAllChar ':' '-' '_' (by decide) _ ?_
          exact notMem_replaceAllChar_self ':' '_' (by decide) _
        exact this (hcore ▸ hmem)
      · have hmem : '-' ∈ replaceAllChar '/' '_' (replaceAllChar '.' '_' repo) :=
          mem_replaceAllChar '-' '/' '_' (by decide) _
            (mem_replaceAllChar '-' '.' '_' (by decide) repo hd)
        have : '-' ∉ sanitizeRepoID repo :=
          notMem_replaceAllChar_self '-' '_' (by decide) _
        exact this (hcore ▸ hmem)
      · have hlt := sanitizeRepoID_length_lt repo hp
        have hlen : (sanitizeRepoID repo).length
            = (replaceAllChar '/' '_' (replaceAllChar '.' '_' repo)).length :=
          congrArg List.length hcore
        rw [replaceAllChar_length, replaceAllChar_length] at hlen
        omega
      · exact hl hlang
    refine ⟨hne, ?_⟩
    unfold findRSTFileByRepo
    have : repoToRSTFile repo ∉ [writerRSTFilename repo lang] := by
      simp only [List.mem_singleton]
      exact fun h => hne h.symm
    simp only [repoToRSTFile] at this ⊢
    rw [if_neg]
    exact this

theorem claim_C9_witness :
    writerRSTFilename (str "github.com/acme/widget") (str "go")
        = repoToRSTFile (str "github.com/acme/widget") ∧
    writerRSTFilename (str "https://github.com/acme/widget") (str "go")
        ≠ repoToRSTFile (str "https://github.com/acme/widget") ∧
    findRSTFileByRepo [writerRSTFilename (str "https://github.com/acme/widget") (str "go")]
        (str "https://github.com/acme/widget") = none :=
  ⟨claim_C9.2.1 (str "github.com/acme/widget") (str "go")
      (by decide) (by decide) (by decide) (by decide) (by decide) rfl,
   (claim_C9.2.2 (str "https://github.com/acme/widget") (str "go")
      (Or.inr (Or.inr (Or.inl (by decide))))).1,
   (claim_C9.2.2 (str "https://github.com/acme/widget") (str "go")
      (Or.inr (Or.inr (Or.inl (by decide))))).2⟩

/-!  ## Stateless query operations over a deserialized RST

File reads and protobuf deserialization are the boundary: the operations are
modelled directly on the `RST` value they deserialize.  Go map iteration
order is modelled as list order (the spec itself declares the iteration
order implementation-defined).
-/

theorem findSome?_isSome_iff {α β : Type} (l : List α) (f : α → Option β) :
    (l.findSome? f).isSome = true ↔ ∃ a ∈ l, (f a).isSome = true := by
  induction l with
  | nil => simp [List.findSome?]
  | cons x xs ih =>
    rw [List.findSome?_cons]
    cases h : f x with
    | some b => simp [h]
    | none => simp [h, ih]

/-- The result record of `getSymbolDetails` (struct `SymbolDetails`). -/
structure SymbolDetailsQ where
  name : Str
  kind : Str
  filePath : Str
  line : Int
  dependencies : List Str
  references : List Str
deriving DecidableEq

/-- The per-candidate name test of `getSymbolDetails`:
`baseName == symbolName || strings.HasSuffix(baseName, "."+symbolName)`. -/
def gsdMatches (symKey symbolName : Str) : Bool :=
  extractSymbolName symKey == symbolName ||
  hasSuffix (extractSymbolName symKey) (str "." ++ symbolName)

/-- `getSymbolDetails` of the CLI `get_file_symbol` command.  `line := 1` is
verbatim from the source (see claim C4). -/
def getSymbolDetails (r : RST) (filePath symbolName : Str) : Option SymbolDetailsQ :=
  match mapLookup r.documents filePath with
  | none => none
  | some doc =>
    doc.symbols.findSome? (fun q =>
      if gsdMatches q.1 symbolName then
        some { name := extractSymbolName q.1, kind := q.2.kind, filePath := filePath,
               line := 1, dependencies := q.2.dependenceOn, references := q.2.referenceBy }
      else none)

/-- The TUI's `symbolDetail` record. -/
structure SymbolDetailT where
  name : Str
  signature : Str
  filePath : Str
  line : Int
  deps : List Str
  refs : List Str
  code : Str
  symbolKey : Str
deriving DecidableEq

/-- The per-candidate name test of the TUI's `loadSymbolDetail`:
`baseName == symbolName || baseName == symbolName+"()"`. -/
def lsdMatches (symKey symbolName : Str) : Bool :=
  extractSymbolName symKey == symbolName ||
  extractSymbolName symKey == symbolName ++ str "()"

/-- `loadSymbolDetail` of the TUI: scan documents (optionally restricted to
one path), return the detail of the first symbol whose extracted name
matches, optionally disambiguated by an exact line. -/
def loadSymbolDetail (r : RST) (filePath symbolName : Str) (line : Int) : Option SymbolDetailT :=
  r.documents.findSome? (fun pd =>
    if filePath ≠ [] ∧ pd.1 ≠ filePath then none
    else
      pd.2.symbols.findSome? (fun q =>
        if lsdMatches q.1 symbolName ∧ (line = 0 ∨ q.2.line = line) then
          some { name := symbolName, signature := q.2.signature, filePath := pd.1,
                 line := q.2.line, deps := q.2.dependenceOn, refs := q.2.referenceBy,
                 code := q.2.code, symbolKey := extractSymbolKey q.2.symbol }
        else none))

/-- Modelled from the spec: the §4.1 name-matching contract — a candidate id
matches a query when `ExtractName(candidate)` equals the query, or equals the
query followed by "()", or ends with "." followed by the query. -/
def specNameMatches (candidate query : Str) : Bool :=
  extractSymbolName candidate == query ||
  extractSymbolName candidate == query ++ str "()" ||
  hasSuffix (extractSymbolName candidate) (str "." ++ query)

def rstC3 : RST :=
  { repo := str "m", language := str "go",
    documents := [(str "f.go",
      { relativePath := str "f.go",
        symbols := [(str "Foo()",
          { symbol := str "Foo()", kind := str "Function", signature := str "func Foo",
            line := 3, code := [], dependenceOn := [], referenceBy := [] })] })] }

def symC3b : RSTSymbol :=
  { symbol := str "pkg`A.Foo", kind := str "Method", signature := str "func Foo",
    line := 5, code := [], dependenceOn := [], referenceBy := [] }

def docC3b : RSTDocument :=
  { relativePath := str "g.go", symbols := [(str "pkg`A.Foo", symC3b)] }

def rstC3b : RST :=
  { repo := str "m", language := str "go", documents := [(str "g.go", docC3b)] }

theorem claim_C3_counterexample :
    specNameMatches (str "Foo()") (str "Foo") = true ∧
    getSymbolDetails rstC3 (str "f.go") (str "Foo") = none ∧
    specNameMatches (str "pkg`A.Foo") (str "Foo") = true ∧
    loadSymbolDetail rstC3b [] (str "Foo") 0 = none := by
  refine ⟨by decide, by decide, by decide, by decide⟩

/-- Claim C3 (amended): the two query operations each check only two of the
three §4.1 name forms — `getSymbolDetails` checks equality and the
"." + query suffix form (not query+"()"), `loadSymbolDetail` checks equality
and the query+"()" form (not the "." suffix form); every form an operation
checks is one of the spec's three forms, and an operation finds a symbol
exactly when some candidate of the addressed document(s) passes its own
two-form test. -/
theorem claim_C3_amended :
    (∀ key q : Str, gsdMatches key q = true → specNameMatches key q = true) ∧
    (∀ key q : Str, lsdMatches key q = true → specNameMatches key q = true) ∧
    (∀ (r : RST) (fp q : Str), (getSymbolDetails r fp q).isSome = true ↔
      ∃ doc, mapLookup r.documents fp = some doc ∧ ∃ p ∈ doc.symbols, gsdMatches p.1 q = true) ∧
    (∀ (r : RST) (q : Str) (line : Int), (loadSymbolDetail r [] q line).isSome = true ↔
      ∃ pd ∈ r.documents, ∃ p ∈ pd.2.symbols,
        lsdMatches p.1 q = true ∧ (line = 0 ∨ p.2.line = line)) := by
  refine ⟨?_, ?_, ?_, ?_⟩
  · intro key q h
    unfold gsdMatches at h
    unfold specNameMatches
    rcases Bool.or_eq_true_iff.mp h with h' | h' <;> simp [h']
  · intro key q h
    unfold lsdMatches at h
    unfold specNameMatches
    rcases Bool.or_eq_true_iff.mp h with h' | h' <;> simp [h']
  · intro r fp q
    unfold getSymbolDetails
    cases hdoc : mapLookup r.documents fp with
    | none =>
      constructor
      · intro h
        simp at h
      · rintro ⟨doc, hdoc', hrest⟩
        exact Option.noConfusion hdoc'
    | some doc =>
      rw [findSome?_isSome_iff]
      constructor
      · rintro ⟨p, hp, hsome⟩
        refine ⟨doc, rfl, p, hp, ?_⟩
        by_cases h : gsdMatches p.1 q = true
        · exact h
        · rw [if_neg h] at hsome
          simp at hsome
      · rintro ⟨doc', hdoc', p, hp, h⟩
        injection hdoc' with hdd
        subst hdd
        exact ⟨p, hp, by rw [if_pos h]; rfl⟩
  · intro r q line
    unfold loadSymbolDetail
    rw [findSome?_isSome_iff]
    constructor
    · rintro ⟨pd, hpd, hsome⟩
      have hguard : ¬ (([] : Str) ≠ [] ∧ pd.1 ≠ ([] : Str)) := by simp
      rw [if_neg hguard] at hsome
      rw [findSome?_isSome_iff] at hsome
      rcases hsome with ⟨p, hp, hsome⟩
      refine ⟨pd, hpd, p, hp, ?_⟩
      by_cases h : lsdMatches p.1 q = true ∧ (line = 0 ∨ p.2.line = line)
      · exact h
      · rw [if_neg h] at hsome
        simp at hsome
    · rintro ⟨pd, hpd, p, hp, h⟩
      refine ⟨pd, hpd, ?_⟩
      have hguard : ¬ (([] : Str) ≠ [] ∧ pd.1 ≠ ([] : Str)) := by simp
      rw [if_neg hguard]
      rw [findSome?_isSome_iff]
      exact ⟨p, hp, by rw [if_pos h]; rfl⟩

theorem claim_C3_witness :
    specNameMatches (str "pkg`A.Foo") (str "Foo") = true ∧
    specNameMatches (str "pkg`Bar()") (str "Bar") = true ∧
    (getSymbolDetails rstC3b (str "g.go") (str "Foo")).isSome = true :=
  ⟨claim_C3_amended.1 (str "pkg`A.Foo") (str "Foo") (by decide),
   claim_C3_amended.2.1 (str "pkg`Bar()") (str "Bar") (by decide),
   (claim_C3_amended.2.2.1 rstC3b (str "g.go") (str "Foo")).mpr
     ⟨docC3b, by decide, (str "pkg`A.Foo", symC3b), by decide, by decide⟩⟩

def rstC4 : RST :=
  { repo := str "m", language := str "go",
    documents := [(str "f.go",
      { relativePath := str "f.go",
        symbols := [(str "Foo",
          { symbol := str "Foo", kind := str "Function", signature := str "func Foo",
            line := 42, code := [], dependenceOn := [str "A"], referenceBy := [str "B"] })] })] }

/-- Claim C4 (code bug): `getSymbolDetails` is specified to return the
symbol's stored 1-indexed definition line, and it does return the stored
kind, `dependence_on` as the dependencies and `reference_by` as the
references — but its `Line` field is the hard-coded constant `1`
(`Line: 1` in the source), not the stored line (42 here). -/
theorem claim_C4_bug :
    getSymbolDetails rstC4 (str "f.go") (str "Foo")
      = some { name := str "Foo", kind := str "Function", filePath := str "f.go",
               line := 1, dependencies := [str "A"], references := [str "B"] } ∧
    ((mapLookup rstC4.documents (str "f.go")).bind
        (fun d => mapLookup d.symbols (str "Foo"))).map (fun s => s.line) = some 42 ∧
    (1 : Int) ≠ 42 := by
  refine ⟨by decide, by decide, by decide⟩

/-!  ## The TUI detail mode: jump stack and back action

The relevant slice of the bubbletea `model`: the current symbol detail, the
jump stack, the mode, the active sub-pane, the viewport content and the two
side lists.  `jumpPush` is the stack push of `jumpToSymbol`; the load it
issues completes as a `symbolDetailMsg`, applied by `applySymbolDetailMsg`;
`backAction` is the "h" handler of `updateSymbolMode`.
-/

structure RefItemT where
  name : Str
  kind : Str
deriving DecidableEq

def makeDepsItems (deps : List Str) : List RefItemT :=
  deps.map (fun d => { name := extractSymbolName d, kind := str "dep" })

def makeRefsItems (refs : List Str) : List RefItemT :=
  refs.map (fun r => { name := extractSymbolName r, kind := str "ref" })

/-- The jump-stack record `symbolJump`: name, signature, line, filePath,
deps, refs, code — and no symbolKey field. -/
structure SymbolJumpT where
  name : Str
  signature : Str
  line : Int
  filePath : Str
  deps : List Str
  refs : List Str
  code : Str
deriving DecidableEq

structure SymModel where
  mode : Nat
  active : Nat
  symbol : Option SymbolDetailT
  symbolStack : List SymbolJumpT
  viewportContent : Str
  depsItems : List RefItemT
  refsItems : List RefItemT
deriving DecidableEq

/-- The stack push of `jumpToSymbol` (the load command it returns is a
separate message, see `applySymbolDetailMsg`). -/
def jumpPush (m : SymModel) : SymModel :=
  match m.symbol with
  | some x =>
    { m with symbolStack := m.symbolStack ++
        [{ name := x.name, signature := x.signature, line := x.line, filePath := x.filePath,
           deps := x.deps, refs := x.refs, code := x.code }] }
  | none => m

/-- The `symbolDetailMsg` handler: install the loaded detail, enter symbol
mode, focus the code view. -/
def applySymbolDetailMsg (m : SymModel) (d : SymbolDetailT) : SymModel :=
  { m with symbol := some d, mode := 1, viewportContent := d.code,
           depsItems := makeDepsItems d.deps, refsItems := makeRefsItems d.refs,
           active := 0 }

/-- The "h" handler of symbol mode: pop the jump stack and restore the popped
detail (the restored `symbolDetail` literal omits `symbolKey`, which therefore
becomes the zero value ""), or exit to the three-pane mode with focus on the
Symbols column when the stack is empty. -/
def backAction (m : SymModel) : SymModel :=
  match m.symbolStack.getLast? with
  | some prev =>
    { m with symbolStack := m.symbolStack.dropLast,
             symbol := some { name := prev.name, signature := prev.signature,
                              filePath := prev.filePath, line := prev.line,
                              deps := prev.deps, refs := prev.refs, code := prev.code,
                              symbolKey := [] },
             viewportContent := prev.code,
             depsItems := makeDepsItems prev.deps, refsItems := makeRefsItems prev.refs }
  | none => { m with mode := 0, symbol := none, active := 2 }

def xC8 : SymbolDetailT :=
  { name := str "X", signature := str "func X", filePath := str "f.go", line := 3,
    deps := [str "Y"], refs := [], code := str "func X() {}",
    symbolKey := str "pkg`" }

def yC8 : SymbolDetailT :=
  { name := str "Y", signature := str "func Y", filePath := str "f.go", line := 9,
    deps := [], refs := [str "X"], code := str "func Y() {}",
    symbolKey := str "pkg`" }

def mC8 : SymModel :=
  { mode := 1, active := 0, symbol := some xC8, symbolStack := [],
    viewportContent := xC8.code, depsItems := makeDepsItems xC8.deps,
    refsItems := makeRefsItems xC8.refs }

theorem claim_C8_counterexample :
    (backAction (applySymbolDetailMsg (jumpPush mC8) yC8)).symbol ≠ some xC8 ∧
    (backAction (applySymbolDetailMsg (jumpPush mC8) yC8)).symbol
      = some { xC8 with symbolKey := [] } := by
  refine ⟨by decide, by decide⟩

/-- Claim C8 (amended): jumping from symbol X to symbol Y pushes X's current
detail minus its `symbolKey` field onto the jump stack (the `symbolJump`
record has no such field), and a subsequent back action pops the stack and —
without re-reading or re-deserializing the RST file (`backAction` takes no
RST input) — restores a detail whose name, signature, filePath, line, deps,
refs and code are byte-identical to X's original detail, but whose
`symbolKey` is reset to the empty string. -/
theorem claim_C8_amended (m : SymModel) (x : SymbolDetailT) (y : SymbolDetailT)
    (hx : m.symbol = some x) :
    (backAction (applySymbolDetailMsg (jumpPush m) y)).symbol
        = some { x with symbolKey := [] } ∧
    (backAction (applySymbolDetailMsg (jumpPush m) y)).symbolStack = m.symbolStack ∧
    (backAction (applySymbolDetailMsg (jumpPush m) y)).viewportContent = x.code ∧
    (backAction (applySymbolDetailMsg (jumpPush m) y)).depsItems = makeDepsItems x.deps ∧
    (backAction (applySymbolDetailMsg (jumpPush m) y)).refsItems = makeRefsItems x.refs := by
  have hpush : jumpPush m =
      { m with symbolStack := m.symbolStack ++
          [{ name := x.name, signature := x.signature, line := x.line, filePath := x.filePath,
             deps := x.deps, refs := x.refs, code := x.code }] } := by
    unfold jumpPush
    rw [hx]
  rw [hpush]
  unfold applySymbolDetailMsg backAction
  simp [List.getLast?_append, List.dropLast_append_of_ne_nil]

theorem claim_C8_witness :
    (backAction (applySymbolDetailMsg (jumpPush mC8) yC8)).symbol
        = some { xC8 with symbolKey := [] } ∧
    (backAction (applySymbolDetailMsg (jumpPush mC8) yC8)).symbolStack = mC8.symbolStack ∧
    (backAction (applySymbolDetailMsg (jumpPush mC8) yC8)).viewportContent = xC8.code ∧
    (backAction (applySymbolDetailMsg (jumpPush mC8) yC8)).depsItems = makeDepsItems xC8.deps ∧
    (backAction (applySymbolDetailMsg (jumpPush mC8) yC8)).refsItems = makeRefsItems xC8.refs :=
  claim_C8_amended mC8 xC8 yC8 rfl

/-!  ## The body extractor (`treeSitterExtractCode`)

The tree-sitter parse is the boundary capability (§6): `parse` turns source
text into a tree of typed nodes with row and byte spans (both language cases
of the source's `switch` call the same Go grammar, so `parse` does not take
the language).  The walk `dfsWalk` visits a node before its children
(pre-order) and the callback records every table-listed node whose 1-indexed
row span contains the target line, overwriting earlier matches.
-/

inductive TSNode : Type where
  | node : Str → Nat → Nat → Nat → Nat → List TSNode → TSNode

def TSNode.ntype : TSNode → Str
  | .node t _ _ _ _ _ => t

def TSNode.startRow : TSNode → Nat
  | .node _ r _ _ _ _ => r

def TSNode.endRow : TSNode → Nat
  | .node _ _ r _ _ _ => r

def TSNode.startByte : TSNode → Nat
  | .node _ _ _ b _ _ => b

def TSNode.endByte : TSNode → Nat
  | .node _ _ _ _ b _ => b

def TSNode.children : TSNode → List TSNode
  | .node _ _ _ _ _ cs => cs

mutual
def preorder : TSNode → List TSNode
  | .node t sr er sb eb cs => .node t sr er sb eb cs :: preorderList cs
def preorderList : List TSNode → List TSNode
  | [] => []
  | c :: cs => preorder c ++ preorderList cs
end

mutual
def walkAcc (p : TSNode → Bool) : Option TSNode → TSNode → Option TSNode
  | acc, .node t sr er sb eb cs =>
    walkAccList p (if p (.node t sr er sb eb cs) then some (.node t sr er sb eb cs) else acc) cs
def walkAccList (p : TSNode → Bool) : Option TSNode → List TSNode → Option TSNode
  | acc, [] => acc
  | acc, c :: cs => walkAccList p (walkAcc p acc c) cs
end

/-- First-some choice on options (`match o with | some x => some x | none => d`). -/
def oor {α : Type} : Option α → Option α → Option α
  | some x, _ => some x
  | none, d => d

theorem oor_assoc {α : Type} (a b c : Option α) : oor (oor a b) c = oor a (oor b c) := by
  cases a <;> rfl

theorem getLast?_append_oor {α : Type} (l₁ l₂ : List α) :
    (l₁ ++ l₂).getLast? = oor l₂.getLast? l₁.getLast? := by
  cases h : l₂.getLast? with
  | some x =>
    have hne : l₂ ≠ [] := by
      rintro rfl
      simp [List.getLast?] at h
    rw [List.getLast?_append_of_ne_nil l₁ hne, h]
    rfl
  | none =>
    have : l₂ = [] := by
      cases l₂ with
      | nil => rfl
      | cons a l => simp [List.getLast?_eq_getLast] at h
    subst this
    simp [oor]

theorem getLast?_cons_oor {α : Type} (a : α) (l : List α) :
    (a :: l).getLast? = oor l.getLast? (some a) := by
  rw [show a :: l = [a] ++ l from rfl, getLast?_append_oor]
  rfl

mutual
theorem walkAcc_eq (p : TSNode → Bool) (acc : Option TSNode) (n : TSNode) :
    walkAcc p acc n = oor ((preorder n).filter p).getLast? acc := by
  cases n with
  | node t sr er sb eb cs =>
    rw [walkAcc, walkAccList_eq, preorder]
    by_cases hp : p (TSNode.node t sr er sb eb cs) = true
    · rw [if_pos hp, List.filter_cons_of_pos hp, getLast?_cons_oor, oor_assoc]
      rfl
    · rw [if_neg hp, List.filter_cons_of_neg (by simpa using hp)]
theorem walkAccList_eq (p : TSNode → Bool) (acc : Option TSNode) (cs : List TSNode) :
    walkAccList p acc cs = oor ((preorderList cs).filter p).getLast? acc := by
  cases cs with
  | nil => rw [walkAccList, preorderList]; rfl
  | cons c cs' =>
    rw [walkAccList, walkAccList_eq, walkAcc_eq, preorderList, List.filter_append,
        getLast?_append_oor, oor_assoc]
end

mutual
theorem walkAcc_innermost (p : TSNode → Bool) (acc : Option TSNode) (n : TSNode) (m : TSNode)
    (h : walkAcc p acc n = some m) :
    (p m = true ∧ ∀ x ∈ preorderList m.children, p x = false) ∨
    (acc = some m ∧ ∀ x ∈ preorder n, p x = false) := by
  cases n with
  | node t sr er sb eb cs =>
    rw [walkAcc] at h
    rcases walkAccList_innermost p _ cs m h with hleft | hright
    · exact Or.inl hleft
    · rcases hright with ⟨hacc, hnom⟩
      by_cases hp : p (TSNode.node t sr er sb eb cs) = true
      · rw [if_pos hp] at hacc
        injection hacc with hm
        subst hm
        exact Or.inl ⟨hp, hnom⟩
      · rw [if_neg hp] at hacc
        refine Or.inr ⟨hacc, ?_⟩
        intro x hx
        rw [preorder] at hx
        rcases List.mem_cons.mp hx with hx' | hx'
        · rw [hx']
          simpa using hp
        · exact hnom x hx'
theorem walkAccList_innermost (p : TSNode → Bool) (acc : Option TSNode) (cs : List TSNode) (m : TSNode)
    (h : walkAccList p acc cs = some m) :
    (p m = true ∧ ∀ x ∈ preorderList m.children, p x = false) ∨
    (acc = some m ∧ ∀ x ∈ preorderList cs, p x = false) := by
  cases cs with
  | nil =>
    rw [walkAccList] at h
    refine Or.inr ⟨h, ?_⟩
    intro x hx
    rw [preorderList] at hx
    simp at hx
  | cons c cs' =>
    rw [walkAccList] at h
    rcases walkAccList_innermost p _ cs' m h with hleft | hright
    · exact Or.inl hleft
    · rcases hright with ⟨hacc, hno'⟩
      rcases walkAcc_innermost p acc c m hacc with hleft | hright2
      · exact Or.inl hleft
      · rcases hright2 with ⟨hacc2, hno⟩
        refine Or.inr ⟨hacc2, ?_⟩
        intro x hx
        rw [preorderList] at hx
        rcases List.mem_append.mp hx with h1 | h1
        · exact hno x h1
        · exact hno' x h1
end

def goNodeTypes : List Str :=
  [str "function_declaration", str "method_declaration",
   str "type_declaration", str "type_spec"]

/-- The `codeBlockNodeTypes` table (language code → extractable node types). -/
def codeBlockNodeTypes : List (Str × List Str) :=
  [(str "go", goNodeTypes),
   (str "typescript",
     [str "function_declaration", str "function_expression", str "arrow_function",
      str "method_definition", str "generator_function",
      str "class_declaration", str "interface_declaration", str "type_alias_declaration"]),
   (str "javascript",
     [str "function_declaration", str "function_expression", str "arrow_function",
      str "method_definition", str "generator_function",
      str "class_declaration"]),
   (str "python", [str "function_definition", str "class_definition"]),
   (str "rust",
     [str "function_item", str "struct_item", str "enum_item", str "impl_item", str "trait_item"]),
   (str "java",
     [str "method_declaration", str "constructor_declaration",
      str "class_declaration", str "interface_declaration", str "enum_declaration"]),
   (str "c",
     [str "function_definition", str "method_definition",
      str "struct_specifier", str "enum_specifier"]),
   (str "cpp",
     [str "function_definition", str "method_definition",
      str "struct_specifier", str "class_specifier", str "enum_specifier"])]

/-- `nodeTypes, ok := codeBlockNodeTypes[lang]; if !ok { nodeTypes = codeBlockNodeTypes["go"] }`. -/
def nodeTypesFor (lang : Str) : List Str :=
  match mapLookup codeBlockNodeTypes lang with
  | some ts => ts
  | none => goNodeTypes

/-- The walk callback's test: node type in the table and the 1-indexed row
span `[startRow+1, endRow+1]` contains the target line. -/
def extractPred (nodeTypes : List Str) (line : Nat) (n : TSNode) : Bool :=
  nodeTypes.contains n.ntype && decide (n.startRow + 1 ≤ line) && decide (line ≤ n.endRow + 1)

/-- `treeSitterExtractCode`: empty on read failure (`fileData = none`) or
parse failure; otherwise the byte slice `sourceCode[startByte:endByte]` of the
node recorded by the pre-order walk (`dfsWalk` visits the node, then its
children left to right, and the callback overwrites the recorded match). -/
def treeSitterExtractCode (fileData : Option Str) (parse : Str → Option TSNode)
    (line : Nat) (lang : Str) : Str :=
  match fileData with
  | none => []
  | some sourceCode =>
    match parse sourceCode with
    | none => []
    | some root =>
      match walkAcc (extractPred (nodeTypesFor lang) line) none root with
      | none => []
      | some n => (sourceCode.take n.endByte).drop n.startByte

/-- Claim C5: body extraction returns the byte-exact `[start_byte, end_byte)`
slice of the last node recorded by the pre-order walk whose type is in the
language's declaration-node table and whose row span contains the target
line; that node is innermost — no node nested within it also matches — and
the result is empty when the file read fails, the parse fails, or no node
matches. -/
theorem claim_C5 :
    (∀ (parse : Str → Option TSNode) (line : Nat) (lang : Str),
      treeSitterExtractCode none parse line lang = []) ∧
    (∀ (src : Str) (parse : Str → Option TSNode) (line : Nat) (lang : Str),
      parse src = none → treeSitterExtractCode (some src) parse line lang = []) ∧
    (∀ (src : Str) (parse : Str → Option TSNode) (line : Nat) (lang : Str) (root : TSNode),
      parse src = some root →
      treeSitterExtractCode (some src) parse line lang =
        match ((preorder root).filter (extractPred (nodeTypesFor lang) line)).getLast? with
        | none => []
        | some n => (src.take n.endByte).drop n.startByte) ∧
    (∀ (src : Str) (parse : Str → Option TSNode) (line : Nat) (lang : Str) (root n : TSNode),
      parse src = some root →
      ((preorder root).filter (extractPred (nodeTypesFor lang) line)).getLast? = some n →
      extractPred (nodeTypesFor lang) line n = true ∧
      ∀ x ∈ preorderList n.children, extractPred (nodeTypesFor lang) line x = false) := by
  refine ⟨fun _ _ _ => rfl, ?_, ?_, ?_⟩
  · intro src parse line lang h
    simp only [treeSitterExtractCode]
    rw [h]
  · intro src parse line lang root h
    simp only [treeSitterExtractCode, h]
    rw [walkAcc_eq]
    cases hl : ((preorder root).filter (extractPred (nodeTypesFor lang) line)).getLast? with
    | none => rfl
    | some n => rfl
  · intro src parse line lang root n hparse hlast
    have hwalk : walkAcc (extractPred (nodeTypesFor lang) line) none root = some n := by
      rw [walkAcc_eq, hlast]
      rfl
    rcases walkAcc_innermost _ none root n hwalk with hleft | hright
    · exact hleft
    · exact Option.noConfusion hright.1

def innerC5 : TSNode := .node (str "function_declaration") 4 6 8 12 []

def outerC5 : TSNode := .node (str "function_declaration") 2 8 4 14 [innerC5]

def rootC5 : TSNode := .node (str "source_file") 0 10 0 16 [outerC5]

def srcC5 : Str := str "abcdefghijklmnop"

theorem claim_C5_witness :
    treeSitterExtractCode (some srcC5) (fun _ => some rootC5) 6 (str "go")
      = (match ((preorder rootC5).filter (extractPred (nodeTypesFor (str "go")) 6)).getLast? with
         | none => []
         | some n => (srcC5.take n.endByte).drop n.startByte) ∧
    extractPred (nodeTypesFor (str "go")) 6 innerC5 = true ∧
    (∀ x ∈ preorderList innerC5.children, extractPred (nodeTypesFor (str "go")) 6 x = false) :=
  ⟨claim_C5.2.2.1 srcC5 (fun _ => some rootC5) 6 (str "go") rootC5 rfl,
   (claim_C5.2.2.2 srcC5 (fun _ => some rootC5) 6 (str "go") rootC5 innerC5 rfl rfl).1,
   (claim_C5.2.2.2 srcC5 (fun _ => some rootC5) 6 (str "go") rootC5 innerC5 rfl rfl).2⟩

/-!  ## Claim C6: the occurrence index and kind inference -/

theorem occFold_lookup (occs : List ScipOccurrence) (idx0 : List (Str × OccInfo)) (id : Str) :
    mapLookup (occs.foldl occStep idx0) id =
      match mapLookup idx0 id with
      | some v => some v
      | none =>
        (occs.find? (fun o => !o.range.isEmpty && !o.symbol.isEmpty && o.symbol == id)).map
          (fun o => { line := o.range.headI + 1, kind := inferKindFromRoles o.symbolRoles }) := by
  induction occs generalizing idx0 with
  | nil =>
    cases h : mapLookup idx0 id <;> simp [h]
  | cons o os ih =>
    rw [List.foldl_cons, ih]
    cases hr : o.range with
    | nil =>
      have hstep : occStep idx0 o = idx0 := by
        simp only [occStep, hr]
      have hfind : List.find? (fun o => !o.range.isEmpty && !o.symbol.isEmpty && o.symbol == id) (o :: os)
          = List.find? (fun o => !o.range.isEmpty && !o.symbol.isEmpty && o.symbol == id) os := by
        refine List.find?_cons_of_neg _ ?_
        rw [hr]
        simp
      rw [hstep, hfind]
    | cons r0 rest =>
      by_cases hg : o.symbol ≠ [] ∧ mapLookup idx0 o.symbol = none
      · have hstep : occStep idx0 o =
            mapInsert idx0 o.symbol { line := r0 + 1, kind := inferKindFromRoles o.symbolRoles } := by
          simp only [occStep, hr]
          rw [if_pos hg]
        rw [hstep]
        by_cases hid : id = o.symbol
        · have hfind : List.find? (fun o => !o.range.isEmpty && !o.symbol.isEmpty && o.symbol == id) (o :: os)
              = some o := by
            refine List.find?_cons_of_pos _ ?_
            rw [hr, hid]
            simp [hg.1]
          rw [mapLookup_insert, if_pos hid, hfind, hid, hg.2]
          simp [hr]
        · have hfind : List.find? (fun o => !o.range.isEmpty && !o.symbol.isEmpty && o.symbol == id) (o :: os)
              = List.find? (fun o => !o.range.isEmpty && !o.symbol.isEmpty && o.symbol == id) os := by
            refine List.find?_cons_of_neg _ ?_
            have hne : (o.symbol == id) = false := by
              simp
              exact fun h => hid h.symm
            simp [hne]
          rw [mapLookup_insert, if_neg hid, hfind]
      · have hstep : occStep idx0 o = idx0 := by
          simp only [occStep, hr]
          rw [if_neg hg]
        rw [hstep]
        cases hl : mapLookup idx0 id with
        | some v => rfl
        | none =>
          have hfind : List.find? (fun o => !o.range.isEmpty && !o.symbol.isEmpty && o.symbol == id) (o :: os)
              = List.find? (fun o => !o.range.isEmpty && !o.symbol.isEmpty && o.symbol == id) os := by
            refine List.find?_cons_of_neg _ ?_
            rcases Decidable.not_and_iff_or_not.mp hg with h1 | h1
            · have h2 : o.symbol = [] := Decidable.not_not.mp h1
              simp [h2]
            · have hne : (o.symbol == id) = false := by
                simp
                intro heq
                rw [heq] at h1
                exact h1 hl
              simp [hne]
          rw [hfind]

theorem land_two_pow_pos_iff (n i : Nat) :
    0 < Nat.land n (2 ^ i) ↔ n.testBit i = true := by
  have hland : Nat.land n (2 ^ i) = n &&& (2 ^ i) := rfl
  constructor
  · intro h
    by_contra htb
    have hz : n &&& (2 ^ i) = 0 := by
      apply Nat.eq_of_testBit_eq
      intro j
      rw [Nat.testBit_and, Nat.zero_testBit, Nat.testBit_two_pow]
      by_cases hj : i = j
      · subst hj
        simp [Bool.eq_false_iff.mpr htb]
      · simp [hj]
    rw [hland, hz] at h
    omega
  · intro h
    have hbit : (n &&& (2 ^ i)).testBit i = true := by
      rw [Nat.testBit_and, h, Nat.testBit_two_pow]
      simp
    rw [hland]
    by_contra hpos
    have h0 : n &&& (2 ^ i) = 0 := by omega
    rw [h0, Nat.zero_testBit] at hbit
    exact Bool.noConfusion hbit

/-- Claim C6: the per-document occurrence index maps a symbol id to the row
and inferred kind of its first occurrence (among occurrences with a non-empty
range and non-empty id) in occurrence-list order — later occurrences of the
same id are ignored and firstness involves no role-flag check; the inferred
kind is "FUNC" exactly when the Definition (bit 0) or ForwardDefinition
(bit 6) role bit is set and empty otherwise; and when attached to a declared
symbol, the occurrence's line is always taken and the occurrence's kind
overwrites the declared kind only when that kind was "UnspecifiedKind" or
empty. -/
theorem claim_C6 :
    (∀ (occs : List ScipOccurrence) (id : Str),
      mapLookup (buildOccIndex occs) id =
        (occs.find? (fun o => !o.range.isEmpty && !o.symbol.isEmpty && o.symbol == id)).map
          (fun o => { line := o.range.headI + 1, kind := inferKindFromRoles o.symbolRoles })) ∧
    (∀ roles : Nat, inferKindFromRoles roles =
      if roles.testBit 0 || roles.testBit 6 then str "FUNC" else []) ∧
    (∀ (extractCode : Str → Str → Int → Str → Str) (projectRoot : Str)
        (occIdx : List (Str × OccInfo)) (doc : ScipDocument) (sym : ScipSymbolInfo)
        (info : OccInfo), mapLookup occIdx sym.symbol = some info →
      (mkRSTSymbol extractCode projectRoot occIdx doc sym).line = info.line ∧
      (mkRSTSymbol extractCode projectRoot occIdx doc sym).kind =
        (if sym.kind = str "UnspecifiedKind" ∨ sym.kind = [] then info.kind else sym.kind)) ∧
    (∀ (extractCode : Str → Str → Int → Str → Str) (projectRoot : Str)
        (occIdx : List (Str × OccInfo)) (doc : ScipDocument) (sym : ScipSymbolInfo),
        mapLookup occIdx sym.symbol = none →
      (mkRSTSymbol extractCode projectRoot occIdx doc sym).line = 0 ∧
      (mkRSTSymbol extractCode projectRoot occIdx doc sym).kind = sym.kind) := by
  refine ⟨?_, ?_, ?_, ?_⟩
  · intro occs id
    unfold buildOccIndex
    rw [occFold_lookup]
    rfl
  · intro roles
    unfold inferKindFromRoles SymbolRole_Definition SymbolRole_ForwardDefinition
    have h1 := land_two_pow_pos_iff roles 0
    have h64 := land_two_pow_pos_iff roles 6
    rw [show (2:Nat) ^ 0 = 1 by norm_num] at h1
    rw [show (2:Nat) ^ 6 = 64 by norm_num] at h64
    by_cases t0 : roles.testBit 0 = true
    · rw [if_pos (Or.inl (h1.mpr t0)), if_pos (by simp [t0])]
    · by_cases t6 : roles.testBit 6 = true
      · rw [if_pos (Or.inr (h64.mpr t6)), if_pos (by simp [t6])]
      · rw [if_neg, if_neg]
        · simp [t0, t6]
        · rintro (hp | hp)
          · exact t0 (h1.mp hp)
          · exact t6 (h64.mp hp)
  · intro extractCode projectRoot occIdx doc sym info hinfo
    simp only [mkRSTSymbol, hinfo]
    constructor
    · split_ifs <;> rfl
    · split_ifs <;> rfl
  · intro extractCode projectRoot occIdx doc sym hnone
    simp only [mkRSTSymbol, hnone]
    constructor
    · split_ifs <;> rfl
    · split_ifs <;> rfl

def occC6a : ScipOccurrence :=
  { symbol := str "S", range := [4, 0, 4, 3], enclosingRange := [], symbolRoles := 1 }

def occC6b : ScipOccurrence :=
  { symbol := str "S", range := [9, 0, 9, 3], enclosingRange := [], symbolRoles := 0 }

def symC6 : ScipSymbolInfo :=
  { symbol := str "S", kind := str "UnspecifiedKind", displayName := str "S",
    documentation := [], signatureDocText := [] }

def docC6 : ScipDocument :=
  { relativePath := str "a.go", language := str "go", symbols := [symC6],
    occurrences := [occC6a, occC6b] }

theorem claim_C6_witness :
    mapLookup (buildOccIndex [occC6a, occC6b]) (str "S")
      = some { line := 5, kind := str "FUNC" } ∧
    (mkRSTSymbol (fun _ _ _ _ => []) [] (buildOccIndex [occC6a, occC6b]) docC6 symC6).line = 5 ∧
    (mkRSTSymbol (fun _ _ _ _ => []) [] (buildOccIndex [occC6a, occC6b]) docC6 symC6).kind
      = str "FUNC" := by
  have h1 := claim_C6.1 [occC6a, occC6b] (str "S")
  have h3 := claim_C6.2.2.1 (fun _ _ _ _ => ([] : Str)) [] (buildOccIndex [occC6a, occC6b])
    docC6 symC6 { line := 5, kind := str "FUNC" } (by decide)
  refine ⟨by decide, ?_, ?_⟩
  · rw [h3.1]
  · rw [h3.2]
    decide

/-!  ## Claims C1 and C2: characterizing the cross-reference pass -/

/-- "The binding of `A` has `B` in its `dependence_on`". -/
def depMem (idx : List (Str × (Nat × RSTSymbol))) (A B : Str) : Prop :=
  ∃ p, mapLookup idx A = some p ∧ B ∈ p.2.dependenceOn

/-- "The binding of `A` has `B` in its `reference_by`". -/
def refMem (idx : List (Str × (Nat × RSTSymbol))) (A B : Str) : Prop :=
  ∃ p, mapLookup idx A = some p ∧ B ∈ p.2.referenceBy

def gdep (O : Str) : Nat × RSTSymbol → Nat × RSTSymbol :=
  fun p => (p.1, { p.2 with dependenceOn := addIfAbsent p.2.dependenceOn O })

def gref (S : Str) : Nat × RSTSymbol → Nat × RSTSymbol :=
  fun p => (p.1, { p.2 with referenceBy := addIfAbsent p.2.referenceBy S })

theorem mem_addIfAbsent (l : List Str) (x B : Str) :
    B ∈ addIfAbsent l x ↔ B ∈ l ∨ B = x := by
  unfold addIfAbsent
  by_cases h : x ∈ l
  · rw [if_pos h]
    constructor
    · exact Or.inl
    · rintro (hB | hB)
      · exact hB
      · exact hB ▸ h
  · rw [if_neg h]
    simp

theorem condUpdate_lookup {α : Type} (idx : List (Str × α)) (tkey : Str) (g : α → α)
    (cond : Bool) (k : Str) :
    mapLookup (if cond = true then mapUpdate idx tkey g else idx) k =
      (mapLookup idx k).map (fun v => if k = tkey ∧ cond = true then g v else v) := by
  by_cases hc : cond = true
  · rw [if_pos hc, mapLookup_update]
    by_cases hk : k = tkey
    · subst hk
      simp [hc]
    · rw [if_neg hk]
      cases h : mapLookup idx k <;> simp [hk]
  · rw [if_neg hc]
    cases h : mapLookup idx k <;> simp [hc]

theorem depStage_eq_ite (isLocal : Str → Bool) (idx : List (Str × (Nat × RSTSymbol))) (S O : Str) :
    depStage isLocal idx S O =
      if ((mapLookup idx S).isSome && !(isLocal O)) = true
      then mapUpdate idx S (gdep O) else idx := by
  unfold depStage
  cases hS : mapLookup idx S with
  | none => simp
  | some p =>
    by_cases hl : isLocal O
    · simp [hl]
    · simp only [hl, Bool.not_false, if_neg]
      rw [if_neg (by simp [hl]), if_pos (by simp)]
      rfl

theorem refStage_eq_ite (idx : List (Str × (Nat × RSTSymbol))) (S O : Str) :
    refStage idx S O =
      if (mapLookup idx O).isSome = true then mapUpdate idx O (gref S) else idx := by
  unfold refStage
  cases hO : mapLookup idx O with
  | none => simp
  | some p =>
    rw [if_pos (by simp)]
    rfl

theorem crossPair_lookup (isLocal : Str → Bool) (idx : List (Str × (Nat × RSTSymbol)))
    (S O k : Str) :
    mapLookup (crossPair isLocal idx S O) k =
      (mapLookup idx k).map (fun v =>
        if k = O ∧ (mapLookup idx O).isSome = true
        then gref S (if k = S ∧ ((mapLookup idx S).isSome && !(isLocal O)) = true then gdep O v else v)
        else (if k = S ∧ ((mapLookup idx S).isSome && !(isLocal O)) = true then gdep O v else v)) := by
  unfold crossPair
  rw [refStage_eq_ite, condUpdate_lookup]
  have hd : ∀ k', mapLookup (depStage isLocal idx S O) k' =
      (mapLookup idx k').map
        (fun v => if k' = S ∧ ((mapLookup idx S).isSome && !(isLocal O)) = true then gdep O v else v) := by
    intro k'
    rw [depStage_eq_ite, condUpdate_lookup]
  have hOsome : (mapLookup (depStage isLocal idx S O) O).isSome = (mapLookup idx O).isSome := by
    rw [hd O]
    cases mapLookup idx O <;> rfl
  rw [hd k, hOsome, Option.map_map]
  rfl

theorem crossPair_isSome (isLocal : Str → Bool) (idx : List (Str × (Nat × RSTSymbol)))
    (S O k : Str) :
    (mapLookup (crossPair isLocal idx S O) k).isSome = (mapLookup idx k).isSome := by
  rw [crossPair_lookup]
  cases mapLookup idx k <;> rfl

theorem crossPair_fst (isLocal : Str → Bool) (idx : List (Str × (Nat × RSTSymbol)))
    (S O k : Str) :
    (mapLookup (crossPair isLocal idx S O) k).map Prod.fst
      = (mapLookup idx k).map Prod.fst := by
  rw [crossPair_lookup]
  cases mapLookup idx k with
  | none => rfl
  | some p =>
    simp only [Option.map_some']
    refine congrArg some ?_
    split_ifs <;> rfl

theorem crossPair_depMem (isLocal : Str → Bool) (idx : List (Str × (Nat × RSTSymbol)))
    (S O A B : Str) :
    depMem (crossPair isLocal idx S O) A B ↔
      depMem idx A B ∨
        (A = S ∧ B = O ∧ (mapLookup idx S).isSome = true ∧ isLocal O = false) := by
  unfold depMem
  rw [crossPair_lookup]
  cases hA : mapLookup idx A with
  | none =>
    simp only [Option.map_none']
    constructor
    · rintro ⟨p, hp, _⟩
      exact Option.noConfusion hp
    · rintro (⟨p, hp, _⟩ | ⟨hAS, _, hsome, _⟩)
      · exact Option.noConfusion hp
      · rw [← hAS, hA] at hsome
        simp at hsome
  | some p =>
    simp only [Option.map_some']
    have hmem : ∀ p', (some p = some p' ∧ B ∈ p'.2.dependenceOn) ↔ (p' = p ∧ B ∈ p.2.dependenceOn) := by
      intro p'
      constructor
      · rintro ⟨hp', hB⟩
        injection hp' with he
        exact ⟨he.symm, he ▸ hB⟩
      · rintro ⟨rfl, hB⟩
        exact ⟨rfl, hB⟩
    have hdepval :
        ((fun v =>
          if A = O ∧ (mapLookup idx O).isSome = true
          then gref S (if A = S ∧ ((mapLookup idx S).isSome && !(isLocal O)) = true then gdep O v else v)
          else (if A = S ∧ ((mapLookup idx S).isSome && !(isLocal O)) = true then gdep O v else v)) p).2.dependenceOn
        = if A = S ∧ ((mapLookup idx S).isSome && !(isLocal O)) = true
          then addIfAbsent p.2.dependenceOn O else p.2.dependenceOn := by
      split_ifs <;> rfl
    constructor
    · rintro ⟨p', hp', hB⟩
      injection hp' with he
      rw [← he] at hB
      rw [hdepval] at hB
      by_cases hc2 : A = S ∧ ((mapLookup idx S).isSome && !(isLocal O)) = true
      · rw [if_pos hc2] at hB
        rcases (mem_addIfAbsent _ _ _).mp hB with h | h
        · exact Or.inl ⟨p, rfl, h⟩
        · rcases (Bool.and_eq_true _ _).mp hc2.2 with ⟨hsome, hnl⟩
          exact Or.inr ⟨hc2.1, h, hsome, by simpa using hnl⟩
      · rw [if_neg hc2] at hB
        exact Or.inl ⟨p, rfl, hB⟩
    · rintro (⟨p', hp', hB⟩ | ⟨hAS, hBO, hsome, hloc⟩)
      · injection hp' with he
        refine ⟨_, rfl, ?_⟩
        rw [hdepval]
        rw [← he] at hB
        split_ifs with hc2
        · exact (mem_addIfAbsent _ _ _).mpr (Or.inl hB)
        · exact hB
      · refine ⟨_, rfl, ?_⟩
        rw [hdepval]
        rw [if_pos ⟨hAS, by simp [hsome, hloc]⟩]
        exact (mem_addIfAbsent _ _ _).mpr (Or.inr hBO)

theorem crossPair_refMem (isLocal : Str → Bool) (idx : List (Str × (Nat × RSTSymbol)))
    (S O A B : Str) :
    refMem (crossPair isLocal idx S O) A B ↔
      refMem idx A B ∨
        (A = O ∧ B = S ∧ (mapLookup idx O).isSome = true) := by
  unfold refMem
  rw [crossPair_lookup]
  cases hA : mapLookup idx A with
  | none =>
    simp only [Option.map_none']
    constructor
    · rintro ⟨p, hp, _⟩
      exact Option.noConfusion hp
    · rintro (⟨p, hp, _⟩ | ⟨hAO, _, hsome⟩)
      · exact Option.noConfusion hp
      · rw [← hAO, hA] at hsome
        simp at hsome
  | some p =>
    simp only [Option.map_some']
    have hrefval :
        ((fun v =>
          if A = O ∧ (mapLookup idx O).isSome = true
          then gref S (if A = S ∧ ((mapLookup idx S).isSome && !(isLocal O)) = true then gdep O v else v)
          else (if A = S ∧ ((mapLookup idx S).isSome && !(isLocal O)) = true then gdep O v else v)) p).2.referenceBy
        = if A = O ∧ (mapLookup idx O).isSome = true
          then addIfAbsent p.2.referenceBy S else p.2.referenceBy := by
      split_ifs <;> rfl
    constructor
    · rintro ⟨p', hp', hB⟩
      injection hp' with he
      rw [← he] at hB
      rw [hrefval] at hB
      by_cases hc1 : A = O ∧ (mapLookup idx O).isSome = true
      · rw [if_pos hc1] at hB
        rcases (mem_addIfAbsent _ _ _).mp hB with h | h
        · exact Or.inl ⟨p, rfl, h⟩
        · exact Or.inr ⟨hc1.1, h, hc1.2⟩
      · rw [if_neg hc1] at hB
        exact Or.inl ⟨p, rfl, hB⟩
    · rintro (⟨p', hp', hB⟩ | ⟨hAO, hBS, hsome⟩)
      · injection hp' with he
        refine ⟨_, rfl, ?_⟩
        rw [hrefval]
        rw [← he] at hB
        split_ifs with hc1
        · exact (mem_addIfAbsent _ _ _).mpr (Or.inl hB)
        · exact hB
      · refine ⟨_, rfl, ?_⟩
        rw [hrefval]
        rw [if_pos ⟨hAO, hsome⟩]
        exact (mem_addIfAbsent _ _ _).mpr (Or.inr hBS)

/-- The inner-loop guard of the cross-reference pass as a predicate: the
other occurrence is of a different symbol, has a range, and its first range
row lies within `[s0, e2]`. -/
def innerHit (occ other : ScipOccurrence) (s0 e2 : Int) : Prop :=
  other.symbol ≠ occ.symbol ∧ other.range ≠ [] ∧
    s0 ≤ other.range.headI ∧ other.range.headI ≤ e2

instance (occ other : ScipOccurrence) (s0 e2 : Int) : Decidable (innerHit occ other s0 e2) := by
  unfold innerHit
  infer_instance

theorem crossInner_eq (isLocal : Str → Bool) (occ : ScipOccurrence) (s0 e2 : Int)
    (idx : List (Str × (Nat × RSTSymbol))) (other : ScipOccurrence) :
    crossInner isLocal occ s0 e2 idx other =
      if innerHit occ other s0 e2
      then crossPair isLocal idx occ.symbol other.symbol else idx := by
  unfold crossInner
  by_cases h1 : other.symbol = occ.symbol
  · rw [if_pos (by simp [h1]), if_neg]
    rintro ⟨hne, _, _, _⟩
    exact hne h1
  · rw [if_neg (by simp [h1])]
    cases hr : other.range with
    | nil =>
      rw [if_neg]
      rintro ⟨_, hne, _, _⟩
      exact hne hr
    | cons o0 rest =>
      have hhead : other.range.headI = o0 := by rw [hr]; rfl
      show (if s0 ≤ o0 ∧ o0 ≤ e2 then crossPair isLocal idx occ.symbol other.symbol else idx)
          = if innerHit occ other s0 e2 then crossPair isLocal idx occ.symbol other.symbol else idx
      by_cases hb : s0 ≤ o0 ∧ o0 ≤ e2
      · rw [if_pos hb, if_pos ⟨h1, by rw [hr]; simp, by rw [hhead]; exact hb.1, by rw [hhead]; exact hb.2⟩]
      · rw [if_neg hb, if_neg]
        rintro ⟨_, _, hb1, hb2⟩
        rw [hhead] at hb1 hb2
        exact hb ⟨hb1, hb2⟩

theorem innerFold_isSome (isLocal : Str → Bool) (occ : ScipOccurrence) (s0 e2 : Int)
    (others : List ScipOccurrence) (idx : List (Str × (Nat × RSTSymbol))) (k : Str) :
    (mapLookup (others.foldl (crossInner isLocal occ s0 e2) idx) k).isSome
      = (mapLookup idx k).isSome := by
  induction others generalizing idx with
  | nil => rfl
  | cons other rest ih =>
    rw [List.foldl_cons, ih, crossInner_eq]
    split_ifs
    · rw [crossPair_isSome]
    · rfl

theorem innerFold_depMem (isLocal : Str → Bool) (occ : ScipOccurrence) (s0 e2 : Int)
    (others : List ScipOccurrence) (idx : List (Str × (Nat × RSTSymbol))) (A B : Str) :
    depMem (others.foldl (crossInner isLocal occ s0 e2) idx) A B ↔
      depMem idx A B ∨
        (A = occ.symbol ∧ (mapLookup idx occ.symbol).isSome = true ∧ isLocal B = false ∧
          ∃ other ∈ others, other.symbol = B ∧ innerHit occ other s0 e2) := by
  induction others generalizing idx with
  | nil => simp
  | cons other rest ih =>
    rw [List.foldl_cons, ih, crossInner_eq]
    by_cases hhit : innerHit occ other s0 e2
    · rw [if_pos hhit, crossPair_depMem, crossPair_isSome]
      constructor
      · rintro ((h | ⟨hAS, hBO, hsome, hnl⟩) | ⟨hAS, hsome, hnl, o, ho, hsym, hh⟩)
        · exact Or.inl h
        · exact Or.inr ⟨hAS, hsome, hBO ▸ hnl, other, List.mem_cons_self other rest, hBO.symm, hhit⟩
        · exact Or.inr ⟨hAS, hsome, hnl, o, List.mem_cons_of_mem other ho, hsym, hh⟩
      · rintro (h | ⟨hAS, hsome, hnl, o, ho, hsym, hh⟩)
        · exact Or.inl (Or.inl h)
        · rcases List.mem_cons.mp ho with rfl | ho'
          · exact Or.inl (Or.inr ⟨hAS, hsym.symm, hsome, hsym ▸ hnl⟩)
          · exact Or.inr ⟨hAS, hsome, hnl, o, ho', hsym, hh⟩
    · rw [if_neg hhit]
      constructor
      · rintro (h | ⟨hAS, hsome, hnl, o, ho, hsym, hh⟩)
        · exact Or.inl h
        · exact Or.inr ⟨hAS, hsome, hnl, o, List.mem_cons_of_mem other ho, hsym, hh⟩
      · rintro (h | ⟨hAS, hsome, hnl, o, ho, hsym, hh⟩)
        · exact Or.inl h
        · rcases List.mem_cons.mp ho with rfl | ho'
          · exact absurd hh hhit
          · exact Or.inr ⟨hAS, hsome, hnl, o, ho', hsym, hh⟩

theorem innerFold_refMem (isLocal : Str → Bool) (occ : ScipOccurrence) (s0 e2 : Int)
    (others : List ScipOccurrence) (idx : List (Str × (Nat × RSTSymbol))) (A B : Str) :
    refMem (others.foldl (crossInner isLocal occ s0 e2) idx) A B ↔
      refMem idx A B ∨
        (B = occ.symbol ∧ (mapLookup idx A).isSome = true ∧
          ∃ other ∈ others, other.symbol = A ∧ innerHit occ other s0 e2) := by
  induction others generalizing idx with
  | nil => simp
  | cons other rest ih =>
    rw [List.foldl_cons, ih, crossInner_eq]
    by_cases hhit : innerHit occ other s0 e2
    · rw [if_pos hhit, crossPair_refMem, crossPair_isSome]
      constructor
      · rintro ((h | ⟨hAO, hBS, hsome⟩) | ⟨hBS, hsome, o, ho, hsym, hh⟩)
        · exact Or.inl h
        · exact Or.inr ⟨hBS, hAO ▸ hsome, other, List.mem_cons_self other rest, hAO.symm, hhit⟩
        · exact Or.inr ⟨hBS, hsome, o, List.mem_cons_of_mem other ho, hsym, hh⟩
      · rintro (h | ⟨hBS, hsome, o, ho, hsym, hh⟩)
        · exact Or.inl (Or.inl h)
        · rcases List.mem_cons.mp ho with rfl | ho'
          · exact Or.inl (Or.inr ⟨hsym.symm, hBS, hsym ▸ hsome⟩)
          · exact Or.inr ⟨hBS, hsome, o, ho', hsym, hh⟩
    · rw [if_neg hhit]
      constructor
      · rintro (h | ⟨hBS, hsome, o, ho, hsym, hh⟩)
        · exact Or.inl h
        · exact Or.inr ⟨hBS, hsome, o, List.mem_cons_of_mem other ho, hsym, hh⟩
      · rintro (h | ⟨hBS, hsome, o, ho, hsym, hh⟩)
        · exact Or.inl h
        · rcases List.mem_cons.mp ho with rfl | ho'
          · exact absurd hh hhit
          · exact Or.inr ⟨hBS, hsome, o, ho', hsym, hh⟩

theorem crossOcc_isSome (isLocal : Str → Bool) (idx : List (Str × (Nat × RSTSymbol)))
    (others : List ScipOccurrence) (occ : ScipOccurrence) (k : Str) :
    (mapLookup (crossOcc isLocal idx others occ) k).isSome = (mapLookup idx k).isSome := by
  unfold crossOcc
  by_cases hloc : isLocal occ.symbol
  · rw [if_pos hloc]
  · rw [if_neg hloc]
    rcases occ.enclosingRange with _ | ⟨s0, _ | ⟨t1, _ | ⟨e2, rest⟩⟩⟩
    · rfl
    · rfl
    · rfl
    · exact innerFold_isSome isLocal occ s0 e2 others idx k

theorem crossOcc_depMem (isLocal : Str → Bool) (idx : List (Str × (Nat × RSTSymbol)))
    (others : List ScipOccurrence) (occ : ScipOccurrence) (A B : Str) :
    depMem (crossOcc isLocal idx others occ) A B ↔
      depMem idx A B ∨
        (isLocal occ.symbol = false ∧ 3 ≤ occ.enclosingRange.length ∧
          A = occ.symbol ∧ (mapLookup idx occ.symbol).isSome = true ∧ isLocal B = false ∧
          ∃ other ∈ others, other.symbol = B ∧
            innerHit occ other occ.enclosingRange.headI (occ.enclosingRange.getD 2 0)) := by
  unfold crossOcc
  by_cases hloc : isLocal occ.symbol
  · rw [if_pos hloc]
    constructor
    · exact Or.inl
    · rintro (h | ⟨hl, _⟩)
      · exact h
      · rw [hloc] at hl
        exact Bool.noConfusion hl
  · rw [if_neg hloc]
    have hl : isLocal occ.symbol = false := by simpa using hloc
    rcases he : occ.enclosingRange with _ | ⟨s0, _ | ⟨t1, _ | ⟨e2, rest⟩⟩⟩
    · constructor
      · exact Or.inl
      · rintro (h | ⟨_, hlen, _⟩)
        · exact h
        · simp at hlen
    · constructor
      · exact Or.inl
      · rintro (h | ⟨_, hlen, _⟩)
        · exact h
        · simp at hlen
    · constructor
      · exact Or.inl
      · rintro (h | ⟨_, hlen, _⟩)
        · exact h
        · simp at hlen
    · rw [innerFold_depMem]
      constructor
      · rintro (h | ⟨hAS, hsome, hnl, rest2⟩)
        · exact Or.inl h
        · exact Or.inr ⟨hl, by simp, hAS, hsome, hnl, rest2⟩
      · rintro (h | ⟨_, _, hAS, hsome, hnl, rest2⟩)
        · exact Or.inl h
        · exact Or.inr ⟨hAS, hsome, hnl, rest2⟩

theorem crossOcc_refMem (isLocal : Str → Bool) (idx : List (Str × (Nat × RSTSymbol)))
    (others : List ScipOccurrence) (occ : ScipOccurrence) (A B : Str) :
    refMem (crossOcc isLocal idx others occ) A B ↔
      refMem idx A B ∨
        (isLocal occ.symbol = false ∧ 3 ≤ occ.enclosingRange.length ∧
          B = occ.symbol ∧ (mapLookup idx A).isSome = true ∧
          ∃ other ∈ others, other.symbol = A ∧
            innerHit occ other occ.enclosingRange.headI (occ.enclosingRange.getD 2 0)) := by
  unfold crossOcc
  by_cases hloc : isLocal occ.symbol
  · rw [if_pos hloc]
    constructor
    · exact Or.inl
    · rintro (h | ⟨hl, _⟩)
      · exact h
      · rw [hloc] at hl
        exact Bool.noConfusion hl
  · rw [if_neg hloc]
    have hl : isLocal occ.symbol = false := by simpa using hloc
    rcases he : occ.enclosingRange with _ | ⟨s0, _ | ⟨t1, _ | ⟨e2, rest⟩⟩⟩
    · constructor
      · exact Or.inl
      · rintro (h | ⟨_, hlen, _⟩)
        · exact h
        · simp at hlen
    · constructor
      · exact Or.inl
      · rintro (h | ⟨_, hlen, _⟩)
        · exact h
        · simp at hlen
    · constructor
      · exact Or.inl
      · rintro (h | ⟨_, hlen, _⟩)
        · exact h
        · simp at hlen
    · rw [innerFold_refMem]
      constructor
      · rintro (h | ⟨hBS, hsome, rest2⟩)
        · exact Or.inl h
        · exact Or.inr ⟨hl, by simp, hBS, hsome, rest2⟩
      · rintro (h | ⟨_, _, hBS, hsome, rest2⟩)
        · exact Or.inl h
        · exact Or.inr ⟨hBS, hsome, rest2⟩

/-- The trigger of one cross-reference edge inside one document: a non-local
scope occurrence of `S` with an enclosing range of length ≥ 3, and an inner
occurrence of `O` whose first range row lies within the scope rows. -/
def docTrigger (isLocal : Str → Bool) (doc : ScipDocument) (S O : Str) : Prop :=
  ∃ occ ∈ doc.occurrences, occ.symbol = S ∧ isLocal occ.symbol = false ∧
    3 ≤ occ.enclosingRange.length ∧
    ∃ other ∈ doc.occurrences, other.symbol = O ∧
      innerHit occ other occ.enclosingRange.headI (occ.enclosingRange.getD 2 0)

instance (isLocal : Str → Bool) (doc : ScipDocument) (S O : Str) :
    Decidable (docTrigger isLocal doc S O) := by
  unfold docTrigger
  infer_instance

theorem occsFold_isSome (isLocal : Str → Bool) (others occs : List ScipOccurrence)
    (idx : List (Str × (Nat × RSTSymbol))) (k : Str) :
    (mapLookup (occs.foldl (fun idx occ => crossOcc isLocal idx others occ) idx) k).isSome
      = (mapLookup idx k).isSome := by
  induction occs generalizing idx with
  | nil => rfl
  | cons occ rest ih =>
    rw [List.foldl_cons, ih, crossOcc_isSome]

theorem occsFold_depMem (isLocal : Str → Bool) (others occs : List ScipOccurrence)
    (idx : List (Str × (Nat × RSTSymbol))) (A B : Str) :
    depMem (occs.foldl (fun idx occ => crossOcc isLocal idx others occ) idx) A B ↔
      depMem idx A B ∨
        ((mapLookup idx A).isSome = true ∧ isLocal B = false ∧
          ∃ occ ∈ occs, occ.symbol = A ∧ isLocal occ.symbol = false ∧
            3 ≤ occ.enclosingRange.length ∧
            ∃ other ∈ others, other.symbol = B ∧
              innerHit occ other occ.enclosingRange.headI (occ.enclosingRange.getD 2 0)) := by
  induction occs generalizing idx with
  | nil => simp
  | cons occ rest ih =>
    rw [List.foldl_cons, ih, crossOcc_depMem, crossOcc_isSome]
    constructor
    · rintro ((h | ⟨hlo, hlen, hAS, hsomeS, hnl, o, ho, hsym, hh⟩) | ⟨hsomeA, hnl, o, ho, hrest⟩)
      · exact Or.inl h
      · refine Or.inr ⟨?_, hnl, occ, List.mem_cons_self occ rest, hAS.symm, hlo, hlen, o, ho, hsym, hh⟩
        rw [hAS]
        exact hsomeS
      · exact Or.inr ⟨hsomeA, hnl, o, List.mem_cons_of_mem occ ho, hrest⟩
    · rintro (h | ⟨hsomeA, hnl, o, ho, hsym, hlo, hlen, inner⟩)
      · exact Or.inl (Or.inl h)
      · rcases List.mem_cons.mp ho with heq | ho'
        · subst heq
          exact Or.inl (Or.inr ⟨hlo, hlen, hsym.symm, by rw [hsym]; exact hsomeA, hnl, inner⟩)
        · exact Or.inr ⟨hsomeA, hnl, o, ho', hsym, hlo, hlen, inner⟩

theorem occsFold_refMem (isLocal : Str → Bool) (others occs : List ScipOccurrence)
    (idx : List (Str × (Nat × RSTSymbol))) (A B : Str) :
    refMem (occs.foldl (fun idx occ => crossOcc isLocal idx others occ) idx) A B ↔
      refMem idx A B ∨
        ((mapLookup idx A).isSome = true ∧
          ∃ occ ∈ occs, occ.symbol = B ∧ isLocal occ.symbol = false ∧
            3 ≤ occ.enclosingRange.length ∧
            ∃ other ∈ others, other.symbol = A ∧
              innerHit occ other occ.enclosingRange.headI (occ.enclosingRange.getD 2 0)) := by
  induction occs generalizing idx with
  | nil => simp
  | cons occ rest ih =>
    rw [List.foldl_cons, ih, crossOcc_refMem, crossOcc_isSome]
    constructor
    · rintro ((h | ⟨hlo, hlen, hBS, hsomeA, o, ho, hsym, hh⟩) | ⟨hsomeA, o, ho, hrest⟩)
      · exact Or.inl h
      · exact Or.inr ⟨hsomeA, occ, List.mem_cons_self occ rest, hBS.symm, hlo, hlen, o, ho, hsym, hh⟩
      · exact Or.inr ⟨hsomeA, o, List.mem_cons_of_mem occ ho, hrest⟩
    · rintro (h | ⟨hsomeA, o, ho, hsym, hlo, hlen, inner⟩)
      · exact Or.inl (Or.inl h)
      · rcases List.mem_cons.mp ho with heq | ho'
        · subst heq
          exact Or.inl (Or.inr ⟨hlo, hlen, hsym.symm, hsomeA, inner⟩)
        · exact Or.inr ⟨hsomeA, o, ho', hsym, hlo, hlen, inner⟩

theorem crossDoc_isSome (isLocal : Str → Bool) (idx : List (Str × (Nat × RSTSymbol)))
    (doc : ScipDocument) (k : Str) :
    (mapLookup (crossDoc isLocal idx doc) k).isSome = (mapLookup idx k).isSome := by
  unfold crossDoc
  exact occsFold_isSome isLocal doc.occurrences doc.occurrences idx k

theorem pass2_isSome (isLocal : Str → Bool) (docs : List ScipDocument)
    (idx0 : List (Str × (Nat × RSTSymbol))) (k : Str) :
    (mapLookup (pass2 isLocal docs idx0) k).isSome = (mapLookup idx0 k).isSome := by
  unfold pass2
  induction docs generalizing idx0 with
  | nil => rfl
  | cons doc rest ih =>
    rw [List.foldl_cons, ih, crossDoc_isSome]

theorem pass2_depMem (isLocal : Str → Bool) (docs : List ScipDocument)
    (idx0 : List (Str × (Nat × RSTSymbol))) (A B : Str) :
    depMem (pass2 isLocal docs idx0) A B ↔
      depMem idx0 A B ∨
        ((mapLookup idx0 A).isSome = true ∧ isLocal B = false ∧
          ∃ doc ∈ docs, docTrigger isLocal doc A B) := by
  unfold pass2
  induction docs generalizing idx0 with
  | nil => simp
  | cons doc rest ih =>
    rw [List.foldl_cons, ih]
    have hcd : depMem (crossDoc isLocal idx0 doc) A B ↔
        depMem idx0 A B ∨
          ((mapLookup idx0 A).isSome = true ∧ isLocal B = false ∧ docTrigger isLocal doc A B) := by
      unfold crossDoc docTrigger
      exact occsFold_depMem isLocal doc.occurrences doc.occurrences idx0 A B
    rw [hcd, crossDoc_isSome]
    constructor
    · rintro ((h | ⟨hsome, hnl, ht⟩) | ⟨hsome, hnl, d, hd, ht⟩)
      · exact Or.inl h
      · exact Or.inr ⟨hsome, hnl, doc, List.mem_cons_self doc rest, ht⟩
      · exact Or.inr ⟨hsome, hnl, d, List.mem_cons_of_mem doc hd, ht⟩
    · rintro (h | ⟨hsome, hnl, d, hd, ht⟩)
      · exact Or.inl (Or.inl h)
      · rcases List.mem_cons.mp hd with heq | hd'
        · subst heq
          exact Or.inl (Or.inr ⟨hsome, hnl, ht⟩)
        · exact Or.inr ⟨hsome, hnl, d, hd', ht⟩

theorem pass2_refMem (isLocal : Str → Bool) (docs : List ScipDocument)
    (idx0 : List (Str × (Nat × RSTSymbol))) (A B : Str) :
    refMem (pass2 isLocal docs idx0) A B ↔
      refMem idx0 A B ∨
        ((mapLookup idx0 A).isSome = true ∧
          ∃ doc ∈ docs, docTrigger isLocal doc B A) := by
  unfold pass2
  induction docs generalizing idx0 with
  | nil => simp
  | cons doc rest ih =>
    rw [List.foldl_cons, ih]
    have hcd : refMem (crossDoc isLocal idx0 doc) A B ↔
        refMem idx0 A B ∨
          ((mapLookup idx0 A).isSome = true ∧ docTrigger isLocal doc B A) := by
      unfold crossDoc docTrigger
      exact occsFold_refMem isLocal doc.occurrences doc.occurrences idx0 A B
    rw [hcd, crossDoc_isSome]
    constructor
    · rintro ((h | ⟨hsome, ht⟩) | ⟨hsome, d, hd, ht⟩)
      · exact Or.inl h
      · exact Or.inr ⟨hsome, doc, List.mem_cons_self doc rest, ht⟩
      · exact Or.inr ⟨hsome, d, List.mem_cons_of_mem doc hd, ht⟩
    · rintro (h | ⟨hsome, d, hd, ht⟩)
      · exact Or.inl (Or.inl h)
      · rcases List.mem_cons.mp hd with heq | hd'
        · subst heq
          exact Or.inl (Or.inr ⟨hsome, ht⟩)
        · exact Or.inr ⟨hsome, d, hd', ht⟩

theorem mkRSTSymbol_edges (extractCode : Str → Str → Int → Str → Str)
    (projectRoot : Str) (occIdx : List (Str × OccInfo)) (doc : ScipDocument)
    (sym : ScipSymbolInfo) :
    (mkRSTSymbol extractCode projectRoot occIdx doc sym).dependenceOn = [] ∧
    (mkRSTSymbol extractCode projectRoot occIdx doc sym).referenceBy = [] := by
  simp only [mkRSTSymbol]
  cases mapLookup occIdx sym.symbol <;> constructor <;> split_ifs <;> rfl

theorem mapLookup_mem {α : Type} (m : List (Str × α)) (k : Str) (v : α)
    (h : mapLookup m k = some v) : (k, v) ∈ m := by
  unfold mapLookup at h
  cases hf : m.find? (fun p => p.1 == k) with
  | none =>
    rw [hf] at h
    exact Option.noConfusion h
  | some p =>
    rw [hf] at h
    injection h with hv
    have hp : p ∈ m := List.mem_of_find?_eq_some hf
    have hk : p.1 = k := by
      have := List.find?_some hf
      simpa using this
    have : p = (k, v) := by
      rw [← hk, ← hv]
    exact this ▸ hp

theorem guardedFold_values {α β : Type} (l : List α) (g : α → Bool) (key : α → Str)
    (val : α → β) (m0 : List (Str × β)) (P : Str × β → Prop)
    (hm0 : ∀ x ∈ m0, P x) (hval : ∀ a ∈ l, g a = false → P (key a, val a)) :
    ∀ x ∈ l.foldl (fun m a => if g a then m else mapInsert m (key a) (val a)) m0, P x := by
  induction l generalizing m0 with
  | nil => exact hm0
  | cons a l ih =>
    rw [List.foldl_cons]
    refine ih _ ?_ ?_
    · intro x hx
      by_cases hg : g a
      · rw [if_pos hg] at hx
        exact hm0 x hx
      · rw [if_neg hg] at hx
        rcases mapInsert_mem _ _ _ _ hx with h1 | h1
        · exact h1 ▸ hval a (List.mem_cons_self a l) (by simpa using hg)
        · exact hm0 x h1
    · intro b hb hgb
      exact hval b (List.mem_cons_of_mem a hb) hgb

theorem guardedFold_lookup_sources {α β : Type} (l : List α) (g : α → Bool) (key : α → Str)
    (val : α → β) (m0 : List (Str × β)) (k : Str) (v : β)
    (h : mapLookup (l.foldl (fun m a => if g a then m else mapInsert m (key a) (val a)) m0) k
          = some v) :
    (∃ a ∈ l, g a = false ∧ key a = k ∧ val a = v) ∨ mapLookup m0 k = some v := by
  induction l generalizing m0 with
  | nil => exact Or.inr h
  | cons a l ih =>
    rw [List.foldl_cons] at h
    rcases ih _ h with ⟨b, hb, hgb, hkb, hvb⟩ | hrest
    · exact Or.inl ⟨b, List.mem_cons_of_mem a hb, hgb, hkb, hvb⟩
    · by_cases hg : g a
      · rw [if_pos hg] at hrest
        exact Or.inr hrest
      · rw [if_neg hg] at hrest
        rw [mapLookup_insert] at hrest
        by_cases hk : k = key a
        · rw [if_pos hk] at hrest
          injection hrest with hv
          exact Or.inl ⟨a, List.mem_cons_self a l, by simpa using hg, hk.symm, hv⟩
        · rw [if_neg hk] at hrest
          exact Or.inr hrest

theorem guardedFold_lookup_untouched {α β : Type} (l : List α) (g : α → Bool) (key : α → Str)
    (val : α → β) (m0 : List (Str × β)) (k : Str) (hk : ∀ a ∈ l, key a ≠ k) :
    mapLookup (l.foldl (fun m a => if g a then m else mapInsert m (key a) (val a)) m0) k
      = mapLookup m0 k := by
  induction l generalizing m0 with
  | nil => rfl
  | cons a l ih =>
    rw [List.foldl_cons, ih _ (fun b hb => hk b (List.mem_cons_of_mem a hb))]
    by_cases hg : g a
    · rw [if_pos hg]
    · rw [if_neg hg, mapLookup_insert,
          if_neg (fun h => hk a (List.mem_cons_self a l) h.symm)]

theorem guardedFold_lookup_nodup {α β : Type} (l : List α) (g : α → Bool) (key : α → Str)
    (val : α → β) (m0 : List (Str × β)) (hnod : (l.map key).Nodup)
    (hm0 : ∀ a ∈ l, mapLookup m0 (key a) = none)
    (a : α) (ha : a ∈ l) (hg : g a = false) :
    mapLookup (l.foldl (fun m x => if g x then m else mapInsert m (key x) (val x)) m0) (key a)
      = some (val a) := by
  induction l generalizing m0 with
  | nil => exact absurd ha (List.not_mem_nil a)
  | cons b l ih =>
    rw [List.map_cons, List.nodup_cons] at hnod
    rw [List.foldl_cons]
    rcases List.mem_cons.mp ha with heq | ha'
    · subst heq
      have hkeys : ∀ x ∈ l, key x ≠ key a := by
        intro x hx h
        exact hnod.1 (h ▸ List.mem_map_of_mem key hx)
      rw [guardedFold_lookup_untouched _ _ _ _ _ _ hkeys]
      rw [if_neg (by simp [hg])]
      rw [mapLookup_insert, if_pos rfl]
    · refine ih _ hnod.2 ?_ ha'
      intro x hx
      by_cases hgb : g b
      · rw [if_pos hgb]
        exact hm0 x (List.mem_cons_of_mem b hx)
      · rw [if_neg hgb, mapLookup_insert]
        rw [if_neg]
        · exact hm0 x (List.mem_cons_of_mem b hx)
        · intro h
          exact hnod.1 (h ▸ List.mem_map_of_mem key hx)

/-- All (document index, document, declared symbol) triples, in declaration
order. -/
def declTriples (docs : List ScipDocument) : List (Nat × ScipDocument × ScipSymbolInfo) :=
  (docs.enum.map (fun p => p.2.symbols.map (fun sym => (p.1, p.2, sym)))).flatten

/-- All declared symbol ids of the input documents, in declaration order. -/
def declaredIds (docs : List ScipDocument) : List Str :=
  (docs.map (fun d => d.symbols.map (fun sym => sym.symbol))).flatten

theorem pass1Index_eq_flat (isLocal : Str → Bool) (extractCode : Str → Str → Int → Str → Str)
    (projectRoot : Str) (docs : List ScipDocument) :
    pass1Index isLocal extractCode projectRoot docs =
      (declTriples docs).foldl
        (fun idx t =>
          if isLocal t.2.2.symbol then idx
          else mapInsert idx t.2.2.symbol
            (t.1, mkRSTSymbol extractCode projectRoot (buildOccIndex t.2.1.occurrences) t.2.1 t.2.2))
        [] := by
  unfold pass1Index declTriples
  rw [List.foldl_flatten, List.foldl_map]
  congr 1
  funext idx p
  rw [List.foldl_map]

theorem declTriples_map_key (docs : List ScipDocument) :
    (declTriples docs).map (fun t => t.2.2.symbol) = declaredIds docs := by
  unfold declTriples declaredIds
  rw [List.map_flatten, List.map_map]
  congr 1
  have h1 : docs.enum.map
        ((fun l : List (Nat × ScipDocument × ScipSymbolInfo) => l.map (fun t => t.2.2.symbol)) ∘
          (fun p : Nat × ScipDocument => p.2.symbols.map (fun sym => (p.1, p.2, sym))))
      = docs.enum.map (fun p => p.2.symbols.map (fun sym => sym.symbol)) := by
    refine List.map_congr_left ?_
    intro p _
    simp [List.map_map, Function.comp]
  rw [h1]
  have h2 : docs.enum.map Prod.snd = docs := by
    rw [show docs.enum = List.enumFrom 0 docs from rfl, List.enumFrom_map_snd]
  calc docs.enum.map (fun p => p.2.symbols.map (fun sym => sym.symbol))
      = docs.enum.map ((fun d : ScipDocument => d.symbols.map (fun sym => sym.symbol)) ∘ Prod.snd) := rfl
    _ = (docs.enum.map Prod.snd).map (fun d => d.symbols.map (fun sym => sym.symbol)) := by
        rw [List.map_map]
    _ = docs.map (fun d => d.symbols.map (fun sym => sym.symbol)) := by rw [h2]

theorem mem_declTriples (docs : List ScipDocument) (i : Nat) (doc : ScipDocument)
    (sym : ScipSymbolInfo) (hd : (i, doc) ∈ docs.enum) (hs : sym ∈ doc.symbols) :
    ((i, doc, sym) : Nat × ScipDocument × ScipSymbolInfo) ∈ declTriples docs := by
  unfold declTriples
  rw [List.mem_flatten]
  exact ⟨doc.symbols.map (fun s => (i, doc, s)),
    List.mem_map.mpr ⟨(i, doc), hd, rfl⟩,
    List.mem_map.mpr ⟨sym, hs, rfl⟩⟩

theorem pass1Index_values (isLocal : Str → Bool) (extractCode : Str → Str → Int → Str → Str)
    (projectRoot : Str) (docs : List ScipDocument) (k : Str) (i : Nat) (s : RSTSymbol)
    (h : mapLookup (pass1Index isLocal extractCode projectRoot docs) k = some (i, s)) :
    isLocal k = false ∧ s.dependenceOn = [] ∧ s.referenceBy = [] := by
  rw [pass1Index_eq_flat] at h
  have hmem := mapLookup_mem _ _ _ h
  have hP := guardedFold_values (declTriples docs) (fun t => isLocal t.2.2.symbol)
    (fun t => t.2.2.symbol)
    (fun t => ((t.1, mkRSTSymbol extractCode projectRoot (buildOccIndex t.2.1.occurrences) t.2.1 t.2.2) : Nat × RSTSymbol))
    []
    (fun x => isLocal x.1 = false ∧ x.2.2.dependenceOn = [] ∧ x.2.2.referenceBy = [])
    (by intro x hx; simp at hx)
    (by
      intro a _ hg
      exact ⟨hg, (mkRSTSymbol_edges _ _ _ _ _).1, (mkRSTSymbol_edges _ _ _ _ _).2⟩)
  exact hP (k, (i, s)) hmem

theorem pass1Index_decl_lookup (isLocal : Str → Bool) (extractCode : Str → Str → Int → Str → Str)
    (projectRoot : Str) (docs : List ScipDocument)
    (hids : (declaredIds docs).Nodup)
    (i : Nat) (doc : ScipDocument) (sym : ScipSymbolInfo)
    (hd : (i, doc) ∈ docs.enum) (hs : sym ∈ doc.symbols) (hloc : isLocal sym.symbol = false) :
    mapLookup (pass1Index isLocal extractCode projectRoot docs) sym.symbol
      = some (i, mkRSTSymbol extractCode projectRoot (buildOccIndex doc.occurrences) doc sym) := by
  rw [pass1Index_eq_flat]
  have hmem := mem_declTriples docs i doc sym hd hs
  exact guardedFold_lookup_nodup (declTriples docs) (fun t => isLocal t.2.2.symbol)
    (fun t => t.2.2.symbol)
    (fun t => ((t.1, mkRSTSymbol extractCode projectRoot (buildOccIndex t.2.1.occurrences) t.2.1 t.2.2) : Nat × RSTSymbol))
    []
    (by rw [declTriples_map_key]; exact hids)
    (by intro a _; rfl)
    (i, doc, sym) hmem hloc

theorem pass1Doc_lookup_decl (isLocal : Str → Bool) (extractCode : Str → Str → Int → Str → Str)
    (projectRoot : Str) (doc : ScipDocument) (k : Str) (s : RSTSymbol)
    (h : mapLookup (pass1Doc isLocal extractCode projectRoot doc) k = some s) :
    ∃ sym ∈ doc.symbols, isLocal sym.symbol = false ∧ sym.symbol = k ∧
      s = mkRSTSymbol extractCode projectRoot (buildOccIndex doc.occurrences) doc sym := by
  simp only [pass1Doc] at h
  rcases guardedFold_lookup_sources _ _ _ _ _ _ _ h with ⟨sym, hsym, hg, hk, hv⟩ | hnil
  · exact ⟨sym, hsym, hg, hk, hv.symm⟩
  · rw [mapLookup_nil] at hnil
    exact Option.noConfusion hnil

theorem insertFold_lookup_sources {α β : Type} (l : List α) (key : α → Str) (val : α → β)
    (m0 : List (Str × β)) (k : Str) (v : β)
    (h : mapLookup (l.foldl (fun m a => mapInsert m (key a) (val a)) m0) k = some v) :
    (∃ a ∈ l, key a = k ∧ val a = v) ∨ mapLookup m0 k = some v := by
  induction l generalizing m0 with
  | nil => exact Or.inr h
  | cons a l ih =>
    rw [List.foldl_cons] at h
    rcases ih _ h with ⟨b, hb, hkb, hvb⟩ | hrest
    · exact Or.inl ⟨b, List.mem_cons_of_mem a hb, hkb, hvb⟩
    · rw [mapLookup_insert] at hrest
      by_cases hk : k = key a
      · rw [if_pos hk] at hrest
        injection hrest with hv
        exact Or.inl ⟨a, List.mem_cons_self a l, hk.symm, hv⟩
      · rw [if_neg hk] at hrest
        exact Or.inr hrest

theorem mapLookup_map_keyfix {α β : Type} (m : List (Str × α)) (f : Str × α → Str × β)
    (hf : ∀ p, (f p).1 = p.1) (k : Str) :
    mapLookup (m.map f) k = (mapLookup m k).map (fun v => (f (k, v)).2) := by
  induction m with
  | nil => rfl
  | cons p m ih =>
    rw [List.map_cons, mapLookup_cons, mapLookup_cons, hf p]
    by_cases hk : p.1 = k
    · rw [if_pos hk, if_pos hk]
      have hpk : p = (k, p.2) := by
        rw [← hk]
      rw [Option.map_some']
      exact congrArg (fun q => some q.2) (congrArg f hpk)
    · rw [if_neg hk, if_neg hk, ih]

theorem innerFold_fst (isLocal : Str → Bool) (occ : ScipOccurrence) (s0 e2 : Int)
    (others : List ScipOccurrence) (idx : List (Str × (Nat × RSTSymbol))) (k : Str) :
    (mapLookup (others.foldl (crossInner isLocal occ s0 e2) idx) k).map Prod.fst
      = (mapLookup idx k).map Prod.fst := by
  induction others generalizing idx with
  | nil => rfl
  | cons other rest ih =>
    rw [List.foldl_cons, ih, crossInner_eq]
    split_ifs
    · rw [crossPair_fst]
    · rfl

theorem crossOcc_fst (isLocal : Str → Bool) (idx : List (Str × (Nat × RSTSymbol)))
    (others : List ScipOccurrence) (occ : ScipOccurrence) (k : Str) :
    (mapLookup (crossOcc isLocal idx others occ) k).map Prod.fst
      = (mapLookup idx k).map Prod.fst := by
  unfold crossOcc
  by_cases hloc : isLocal occ.symbol
  · rw [if_pos hloc]
  · rw [if_neg hloc]
    rcases occ.enclosingRange with _ | ⟨s0, _ | ⟨t1, _ | ⟨e2, rest⟩⟩⟩
    · rfl
    · rfl
    · rfl
    · exact innerFold_fst isLocal occ s0 e2 others idx k

theorem occsFold_fst (isLocal : Str → Bool) (others occs : List ScipOccurrence)
    (idx : List (Str × (Nat × RSTSymbol))) (k : Str) :
    (mapLookup (occs.foldl (fun idx occ => crossOcc isLocal idx others occ) idx) k).map Prod.fst
      = (mapLookup idx k).map Prod.fst := by
  induction occs generalizing idx with
  | nil => rfl
  | cons occ rest ih =>
    rw [List.foldl_cons, ih, crossOcc_fst]

theorem pass2_fst (isLocal : Str → Bool) (docs : List ScipDocument)
    (idx0 : List (Str × (Nat × RSTSymbol))) (k : Str) :
    (mapLookup (pass2 isLocal docs idx0) k).map Prod.fst
      = (mapLookup idx0 k).map Prod.fst := by
  unfold pass2
  induction docs generalizing idx0 with
  | nil => rfl
  | cons doc rest ih =>
    rw [List.foldl_cons, ih]
    unfold crossDoc
    exact occsFold_fst isLocal doc.occurrences doc.occurrences idx0 k

/-- Every symbol entry of the built RST is the final cross-referenced value
of its id in the shared `symbolIndex`, provided upstream symbol ids are
unique (the spec's input contract: ids are unique map keys). -/
theorem buildRST_entry (isLocal : Str → Bool) (extractCode : Str → Str → Int → Str → Str)
    (docs : List ScipDocument) (repoID projectRoot pD id : Str)
    (d : RSTDocument) (s : RSTSymbol)
    (hids : (declaredIds docs).Nodup)
    (hdoc : mapLookup (buildRST isLocal extractCode docs repoID projectRoot).documents pD = some d)
    (hsym : mapLookup d.symbols id = some s) :
    (∃ i, mapLookup (pass2 isLocal docs (pass1Index isLocal extractCode projectRoot docs)) id
        = some (i, s)) ∧ isLocal id = false := by
  simp only [buildRST] at hdoc
  rcases insertFold_lookup_sources _ _ _ _ _ _ hdoc with ⟨q, hq, hkey, hval⟩ | hnil
  · subst hval
    set idx := pass2 isLocal docs (pass1Index isLocal extractCode projectRoot docs) with hidx
    have hf : ∀ pp : Str × RSTSymbol,
        ((fun qq : Str × RSTSymbol =>
          match mapLookup idx qq.1 with
          | some js => if js.1 = q.1 then (qq.1, js.2) else qq
          | none => qq) pp).1 = pp.1 := by
      intro pp
      dsimp only
      cases mapLookup idx pp.1 with
      | none => rfl
      | some js =>
        dsimp only
        by_cases hj : js.1 = q.1
        · rw [if_pos hj]
        · rw [if_neg hj]
    dsimp only at hsym
    rw [mapLookup_map_keyfix _ _ hf id] at hsym
    cases h0 : mapLookup (pass1Doc isLocal extractCode projectRoot q.2) id with
    | none =>
      rw [h0] at hsym
      exact Option.noConfusion hsym
    | some s0 =>
      rw [h0, Option.map_some'] at hsym
      injection hsym with hs
      dsimp only at hs
      rcases pass1Doc_lookup_decl isLocal extractCode projectRoot q.2 id s0 h0 with
        ⟨sym, hsymmem, hloc, hsymid, hs0⟩
      have hq' : (q.1, q.2) ∈ docs.enum := by
        rcases q with ⟨i, doc⟩
        exact hq
      have hidx0 : mapLookup (pass1Index isLocal extractCode projectRoot docs) sym.symbol
          = some (q.1, mkRSTSymbol extractCode projectRoot (buildOccIndex q.2.occurrences) q.2 sym) :=
        pass1Index_decl_lookup isLocal extractCode projectRoot docs hids q.1 q.2 sym hq' hsymmem hloc
      rw [hsymid, ← hs0] at hidx0
      have hfst := pass2_fst isLocal docs (pass1Index isLocal extractCode projectRoot docs) id
      rw [← hidx, hidx0] at hfst
      cases hfin : mapLookup idx id with
      | none =>
        rw [hfin] at hfst
        exact Option.noConfusion hfst
      | some js =>
        rcases js with ⟨j1, j2⟩
        rw [hfin, Option.map_some', Option.map_some'] at hfst
        injection hfst with hj
        rw [hfin] at hs
        dsimp only at hs
        rw [if_pos hj] at hs
        refine ⟨⟨q.1, ?_⟩, hsymid ▸ hloc⟩
        dsimp only at hj hs
        rw [hj, hs]
  · rw [mapLookup_nil] at hnil
    exact Option.noConfusion hnil

/-- Membership in an entry's `dependence_on` list is `depMem` of the final
index for that entry's id. -/
theorem depMem_of_entry (idx : List (Str × (Nat × RSTSymbol))) (id : Str)
    (i : Nat) (s : RSTSymbol) (hA : mapLookup idx id = some (i, s)) (B : Str) :
    B ∈ s.dependenceOn ↔ depMem idx id B := by
  constructor
  · intro h
    exact ⟨(i, s), hA, h⟩
  · rintro ⟨p, hp, hm⟩
    rw [hA] at hp
    injection hp with h
    subst h
    exact hm

/-- Membership in an entry's `reference_by` list is `refMem` of the final
index for that entry's id. -/
theorem refMem_of_entry (idx : List (Str × (Nat × RSTSymbol))) (id : Str)
    (i : Nat) (s : RSTSymbol) (hA : mapLookup idx id = some (i, s)) (B : Str) :
    B ∈ s.referenceBy ↔ refMem idx id B := by
  constructor
  · intro h
    exact ⟨(i, s), hA, h⟩
  · rintro ⟨p, hp, hm⟩
    rw [hA] at hp
    injection hp with h
    subst h
    exact hm

/-- The pass-1 index carries no `dependence_on` edges. -/
theorem not_depMem_pass1 (isLocal : Str → Bool) (extractCode : Str → Str → Int → Str → Str)
    (projectRoot : Str) (docs : List ScipDocument) (A B : Str) :
    ¬ depMem (pass1Index isLocal extractCode projectRoot docs) A B := by
  rintro ⟨p, hp, hm⟩
  obtain ⟨-, hdep, -⟩ := pass1Index_values isLocal extractCode projectRoot docs A p.1 p.2 hp
  rw [hdep] at hm
  exact absurd hm (List.not_mem_nil _)

/-- The pass-1 index carries no `reference_by` edges. -/
theorem not_refMem_pass1 (isLocal : Str → Bool) (extractCode : Str → Str → Int → Str → Str)
    (projectRoot : Str) (docs : List ScipDocument) (A B : Str) :
    ¬ refMem (pass1Index isLocal extractCode projectRoot docs) A B := by
  rintro ⟨p, hp, hm⟩
  obtain ⟨-, -, href⟩ := pass1Index_values isLocal extractCode projectRoot docs A p.1 p.2 hp
  rw [href] at hm
  exact absurd hm (List.not_mem_nil _)

/-- C1: For every RST produced by the builder (given the input contract that
upstream symbol ids are unique) and every pair of symbol entries A and B
present in that RST — necessarily non-local, since pass 1 skips local
declarations — A's id appears in B's `dependence_on` iff B's id appears in
A's `reference_by`: the symmetry invariant.  For entries of the same RST the
dangling-edge exception never separates the two sides, for both ids are in
the pass-1 index. -/
theorem claim_C1 (isLocal : Str → Bool) (extractCode : Str → Str → Int → Str → Str)
    (docs : List ScipDocument) (repoID projectRoot : Str)
    (pA pB idA idB : Str) (dA dB : RSTDocument) (sA sB : RSTSymbol)
    (hids : (declaredIds docs).Nodup)
    (hdA : mapLookup (buildRST isLocal extractCode docs repoID projectRoot).documents pA = some dA)
    (hsA : mapLookup dA.symbols idA = some sA)
    (hdB : mapLookup (buildRST isLocal extractCode docs repoID projectRoot).documents pB = some dB)
    (hsB : mapLookup dB.symbols idB = some sB) :
    idA ∈ sB.dependenceOn ↔ idB ∈ sA.referenceBy := by
  obtain ⟨⟨iA, hA⟩, hlocA⟩ :=
    buildRST_entry isLocal extractCode docs repoID projectRoot pA idA dA sA hids hdA hsA
  obtain ⟨⟨iB, hB⟩, hlocB⟩ :=
    buildRST_entry isLocal extractCode docs repoID projectRoot pB idB dB sB hids hdB hsB
  have hsomeA : (mapLookup (pass1Index isLocal extractCode projectRoot docs) idA).isSome = true := by
    rw [← pass2_isSome isLocal docs (pass1Index isLocal extractCode projectRoot docs) idA, hA]
    rfl
  have hsomeB : (mapLookup (pass1Index isLocal extractCode projectRoot docs) idB).isSome = true := by
    rw [← pass2_isSome isLocal docs (pass1Index isLocal extractCode projectRoot docs) idB, hB]
    rfl
  rw [depMem_of_entry _ idB iB sB hB idA, refMem_of_entry _ idA iA sA hA idB,
    pass2_depMem, pass2_refMem]
  constructor
  · rintro (h0 | ⟨-, -, hdoc⟩)
    · exact absurd h0 (not_depMem_pass1 isLocal extractCode projectRoot docs idB idA)
    · exact Or.inr ⟨hsomeA, hdoc⟩
  · rintro (h0 | ⟨-, hdoc⟩)
    · exact absurd h0 (not_refMem_pass1 isLocal extractCode projectRoot docs idA idB)
    · exact Or.inr ⟨hsomeB, hlocA, hdoc⟩

def ilC1 : Str → Bool := fun _ => false

def ecC1 : Str → Str → Int → Str → Str := fun _ _ _ _ => []

def symC1S : ScipSymbolInfo :=
  { symbol := str "S", kind := str "Function", displayName := str "S",
    documentation := [], signatureDocText := [] }

def symC1T : ScipSymbolInfo :=
  { symbol := str "T", kind := str "Function", displayName := str "T",
    documentation := [], signatureDocText := [] }

def occC1S : ScipOccurrence :=
  { symbol := str "S", range := [0, 0, 0, 1], enclosingRange := [0, 0, 5, 1], symbolRoles := 1 }

def occC1T : ScipOccurrence :=
  { symbol := str "T", range := [1, 0, 1, 1], enclosingRange := [], symbolRoles := 0 }

def docC1 : ScipDocument :=
  { relativePath := str "f.go", language := str "go",
    symbols := [symC1S, symC1T], occurrences := [occC1S, occC1T] }

def rstC1 : RST := buildRST ilC1 ecC1 [docC1] (str "m") []

def dC1 : RSTDocument :=
  (mapLookup rstC1.documents (str "f.go")).getD { relativePath := [], symbols := [] }

def emptyRSTSymbol : RSTSymbol :=
  { symbol := [], kind := [], signature := [], line := 0, code := [],
    dependenceOn := [], referenceBy := [] }

def sC1S : RSTSymbol := (mapLookup dC1.symbols (str "S")).getD emptyRSTSymbol

def sC1T : RSTSymbol := (mapLookup dC1.symbols (str "T")).getD emptyRSTSymbol

theorem claim_C1_witness :
    ((declaredIds [docC1]).Nodup ∧
        mapLookup rstC1.documents (str "f.go") = some dC1 ∧
        mapLookup dC1.symbols (str "T") = some sC1T ∧
        mapLookup dC1.symbols (str "S") = some sC1S) ∧
      (str "T" ∈ sC1S.dependenceOn ↔ str "S" ∈ sC1T.referenceBy) ∧
      str "T" ∈ sC1S.dependenceOn :=
  ⟨⟨by decide, by decide, by decide, by decide⟩,
    claim_C1 ilC1 ecC1 [docC1] (str "m") [] (str "f.go") (str "f.go") (str "T") (str "S")
      dC1 dC1 sC1T sC1S (by decide) (by decide) (by decide) (by decide) (by decide),
    by decide⟩

/-- C2 (amended): characterization of the edge lists of a symbol entry of the
built RST (under the unique-ids input contract).  An id O is in the entry's
`dependence_on` iff O is non-local and some document has a matching
scope/inner occurrence pair for (entry id, O) — whether or not O is itself a
symbol entry; dually for `reference_by`.  The code checks the pass-1 index
only for the symbol whose list is being extended, not for the id being
added, so dangling ids survive in both lists. -/
theorem claim_C2_amended (isLocal : Str → Bool) (extractCode : Str → Str → Int → Str → Str)
    (docs : List ScipDocument) (repoID projectRoot pD id : Str)
    (d : RSTDocument) (s : RSTSymbol)
    (hids : (declaredIds docs).Nodup)
    (hdoc : mapLookup (buildRST isLocal extractCode docs repoID projectRoot).documents pD = some d)
    (hsym : mapLookup d.symbols id = some s) :
    (∀ O, O ∈ s.dependenceOn ↔
        isLocal O = false ∧ ∃ doc ∈ docs, docTrigger isLocal doc id O) ∧
    (∀ S, S ∈ s.referenceBy ↔ ∃ doc ∈ docs, docTrigger isLocal doc S id) := by
  obtain ⟨⟨i, hA⟩, hloc⟩ :=
    buildRST_entry isLocal extractCode docs repoID projectRoot pD id d s hids hdoc hsym
  have hsome : (mapLookup (pass1Index isLocal extractCode projectRoot docs) id).isSome = true := by
    rw [← pass2_isSome isLocal docs (pass1Index isLocal extractCode projectRoot docs) id, hA]
    rfl
  constructor
  · intro O
    rw [depMem_of_entry _ id i s hA O, pass2_depMem]
    constructor
    · rintro (h0 | ⟨-, hnl, hd⟩)
      · exact absurd h0 (not_depMem_pass1 isLocal extractCode projectRoot docs id O)
      · exact ⟨hnl, hd⟩
    · rintro ⟨hnl, hd⟩
      exact Or.inr ⟨hsome, hnl, hd⟩
  · intro S
    rw [refMem_of_entry _ id i s hA S, pass2_refMem]
    constructor
    · rintro (h0 | ⟨-, hd⟩)
      · exact absurd h0 (not_refMem_pass1 isLocal extractCode projectRoot docs id S)
      · exact hd
    · intro hd
      exact Or.inr ⟨hsome, hd⟩

def ecC2 : Str → Str → Int → Str → Str := fun _ _ _ _ => []

def symC2S : ScipSymbolInfo :=
  { symbol := str "S", kind := str "Function", displayName := str "S",
    documentation := [], signatureDocText := [] }

def occC2S : ScipOccurrence :=
  { symbol := str "S", range := [0, 0, 0, 1], enclosingRange := [0, 0, 5, 1], symbolRoles := 1 }

def occC2O : ScipOccurrence :=
  { symbol := str "O", range := [1, 0, 1, 1], enclosingRange := [], symbolRoles := 0 }

/-- A document declaring only `S`, whose scope occurrence encloses an
occurrence of the undeclared id `O`. -/
def docC2 : ScipDocument :=
  { relativePath := str "f.go", language := str "go",
    symbols := [symC2S], occurrences := [occC2S, occC2O] }

def rstC2 : RST := buildRST scipIsLocalSymbol ecC2 [docC2] (str "m") []

def dC2 : RSTDocument :=
  (mapLookup rstC2.documents (str "f.go")).getD { relativePath := [], symbols := [] }

def sC2S : RSTSymbol := (mapLookup dC2.symbols (str "S")).getD emptyRSTSymbol

/-- C2 counterexample: in the RST built from `docC2`, the entry for `S` has
the id `O` in its `dependence_on`, yet no document of the RST has a symbol
entry with id `O` — the dangling id is not dropped from `dependence_on`. -/
theorem claim_C2_counterexample :
    mapLookup rstC2.documents (str "f.go") = some dC2 ∧
    mapLookup dC2.symbols (str "S") = some sC2S ∧
    str "O" ∈ sC2S.dependenceOn ∧
    ∀ p ∈ rstC2.documents, mapLookup p.2.symbols (str "O") = none := by
  refine ⟨by decide, by decide, by decide, ?_⟩
  decide

theorem claim_C2_witness :
    ((declaredIds [docC2]).Nodup ∧
        mapLookup rstC2.documents (str "f.go") = some dC2 ∧
        mapLookup dC2.symbols (str "S") = some sC2S) ∧
      (str "O" ∈ sC2S.dependenceOn ↔
        scipIsLocalSymbol (str "O") = false ∧
          ∃ doc ∈ [docC2], docTrigger scipIsLocalSymbol doc (str "S") (str "O")) :=
  ⟨⟨by decide, by decide, by decide⟩,
    (claim_C2_amended scipIsLocalSymbol ecC2 [docC2] (str "m") [] (str "f.go") (str "S")
      dC2 sC2S (by decide) (by decide) (by decide)).1 (str "O")⟩
